import Mathlib

/-!
Recipe server: response parser and request handlers

A shallow embedding of `src/server/index.js`.

* JavaScript strings are modelled as `List Char`.  A character outside the
  Basic Multilingual Plane is one `Char` here and two code units in JavaScript;
  none of the classes and literals of the source tells the two apart.
* The regular expressions of the source are kept as syntax trees (`Re`) and run
  by a backtracking matcher (`Re.run`) that follows the ECMAScript matching
  order: alternatives left to right, greedy quantifiers longest first, lazy
  quantifiers shortest first.  Every quantifier of the source applies to a
  single character class, so the loops recurse on the input.
* Request bodies and response bodies are JSON values (`JsValue`).
* The document store and the text-generation service are external; a handler
  receives their outcome as an argument and reports the calls it made.
-/

namespace RecipeServer

/-! ## Characters -/

/-- White space as matched by `\s` and removed by `String.prototype.trim`
(ECMAScript WhiteSpace and LineTerminator). -/
def isSpace (c : Char) : Bool :=
  let n := c.toNat
  n == 9 || n == 10 || n == 11 || n == 12 || n == 13 || n == 32 || n == 0xA0 ||
  n == 0x1680 || (0x2000 ≤ n && n ≤ 0x200A) || n == 0x2028 || n == 0x2029 ||
  n == 0x202F || n == 0x205F || n == 0x3000 || n == 0xFEFF

/-- ECMAScript LineTerminator: LF, CR, LS, PS. -/
def isLineTerminator (c : Char) : Bool :=
  let n := c.toNat
  n == 10 || n == 13 || n == 0x2028 || n == 0x2029

/-- The class `.` (no `s` flag): every character but a line terminator. -/
def isDot (c : Char) : Bool := !isLineTerminator c

/-- The class `[\s\S]`: every character. -/
def isAny (_ : Char) : Bool := true

/-- The class `\d`. -/
def isDigit (c : Char) : Bool := 48 ≤ c.toNat && c.toNat ≤ 57

/-- The class `[-•*\d]` of the ingredient line marker. -/
def isBullet (c : Char) : Bool := c == '-' || c == '•' || c == '*' || isDigit c

/-- The class `[.!?]`. -/
def isTerminal (c : Char) : Bool := c == '.' || c == '!' || c == '?'

/-- The class `[^.!?]`. -/
def isNonTerminal (c : Char) : Bool := !isTerminal c

/-- The class `\.` as a predicate. -/
def isPeriod (c : Char) : Bool := c == '.'

/-- Canonicalize of the `i` flag (no `u` flag), on the ASCII range.  The
ECMAScript rule never maps a character outside ASCII to one inside it, and the
literals of the source are ASCII, so comparing through this function decides
exactly the matches the source's literals have. -/
def canonicalize (c : Char) : Char :=
  if 97 ≤ c.toNat && c.toNat ≤ 122 then Char.ofNat (c.toNat - 32) else c

/-- Equality of a pattern character and an input character, under the `i`
flag when `ic` is set. -/
def chrEq (ic : Bool) (c d : Char) : Bool :=
  if ic then canonicalize c == canonicalize d else c == d

/-! ## Strings -/

/-- The method `String.prototype.trim`. -/
def trim (s : List Char) : List Char :=
  (s.dropWhile isSpace).rdropWhile isSpace

/-- The call `s.split('\n')`: the pieces between line feeds, `[""]` for the empty
string. -/
def splitLines : List Char → List (List Char)
  | [] => [[]]
  | c :: t =>
    if c = '\n' then [] :: splitLines t
    else
      match splitLines t with
      | [] => [[c]]
      | l :: ls => (c :: l) :: ls

/-! ## Regular expressions -/

/-- The first of two results that is defined. -/
def first {α : Type} (a b : Option α) : Option α :=
  match a with
  | some x => some x
  | none => b

/-- Matcher state: index of the next character, the input from there on, and
the text of capture group 1. -/
structure MState where
  pos : Nat
  rest : List Char
  cap : Option (List Char)
deriving DecidableEq, Repr

/-- Regular expression syntax, as far as the source uses it. -/
inductive Re where
  | chr (c : Char)
  | cls (p : Char → Bool)
  | star (p : Char → Bool)
  | plus (p : Char → Bool)
  | plusLazy (p : Char → Bool)
  | opt (p : Char → Bool)
  | bos
  | eos
  | look (r : Re)
  | group (r : Re)
  | seq (a b : Re)
  | alt (a b : Re)

/-- The loop of a greedy `p*`: take as many characters as match, then give
them back one at a time until the continuation accepts. -/
def starLoop (p : Char → Bool) (k : MState → Option MState) :
    List Char → Nat → Option (List Char) → Option MState
  | [], pos, cap => k ⟨pos, [], cap⟩
  | c :: t, pos, cap =>
    if p c then first (starLoop p k t (pos + 1) cap) (k ⟨pos, c :: t, cap⟩)
    else k ⟨pos, c :: t, cap⟩

/-- The loop of a lazy `p+?`: take one character, then one more each time the
continuation refuses. -/
def lazyLoop (p : Char → Bool) (k : MState → Option MState) :
    List Char → Nat → Option (List Char) → Option MState
  | [], _, _ => none
  | c :: t, pos, cap =>
    if p c then first (k ⟨pos + 1, t, cap⟩) (lazyLoop p k t (pos + 1) cap)
    else none

/-- Backtracking matcher in continuation-passing style: `r.run ic k st` is the
first way to match `r` at `st` that the continuation `k` accepts.  A lookahead
goes on from the state it started in; the lookaheads of the source contain no
group. -/
def Re.run (ic : Bool) : Re → (MState → Option MState) → MState → Option MState
  | .chr c, k, st =>
    match st.rest with
    | [] => none
    | d :: t => if chrEq ic c d then k ⟨st.pos + 1, t, st.cap⟩ else none
  | .cls p, k, st =>
    match st.rest with
    | [] => none
    | d :: t => if p d then k ⟨st.pos + 1, t, st.cap⟩ else none
  | .star p, k, st => starLoop p k st.rest st.pos st.cap
  | .plus p, k, st =>
    match st.rest with
    | [] => none
    | d :: t => if p d then starLoop p k t (st.pos + 1) st.cap else none
  | .plusLazy p, k, st => lazyLoop p k st.rest st.pos st.cap
  | .opt p, k, st =>
    match st.rest with
    | [] => k st
    | d :: t => if p d then first (k ⟨st.pos + 1, t, st.cap⟩) (k st) else k st
  | .bos, k, st => if st.pos = 0 then k st else none
  | .eos, k, st =>
    match st.rest with
    | [] => k st
    | _ :: _ => none
  | .look r, k, st =>
    match r.run ic some st with
    | some _ => k st
    | none => none
  | .group r, k, st =>
    r.run ic (fun st' =>
      k ⟨st'.pos, st'.rest, some (st.rest.take (st.rest.length - st'.rest.length))⟩) st
  | .seq a b, k, st => a.run ic (b.run ic k) st
  | .alt a b, k, st => first (a.run ic k st) (b.run ic k st)

/-- A literal string followed by `r`. -/
def Re.str : List Char → Re → Re
  | [], r => r
  | c :: cs, r => .seq (.chr c) (Re.str cs r)

/-- The leftmost match at or after the current index: start index and final
state. -/
def Re.searchFrom (ic : Bool) (r : Re) : Nat → List Char → Option (Nat × MState)
  | pos, [] =>
    match r.run ic some ⟨pos, [], none⟩ with
    | some st => some (pos, st)
    | none => none
  | pos, c :: t =>
    match r.run ic some ⟨pos, c :: t, none⟩ with
    | some st => some (pos, st)
    | none => Re.searchFrom ic r (pos + 1) t

/-- Search of a regular expression without the `g` flag. -/
def Re.exec (ic : Bool) (r : Re) (text : List Char) : Option (Nat × MState) :=
  r.searchFrom ic 0 text

/-- Capture group 1 of `text.match(r)`, `none` when there is no match or the
group did not take part. -/
def Re.capture1 (ic : Bool) (r : Re) (text : List Char) : Option (List Char) :=
  match r.exec ic text with
  | some (_, st) => st.cap
  | none => none

/-- The call `text.replace(r, '')` for `r` without the `g` flag. -/
def Re.removeFirst (ic : Bool) (r : Re) (text : List Char) : List Char :=
  match r.exec ic text with
  | some (start, st) => text.take start ++ st.rest
  | none => text

/-- The matches of `r` with the `g` flag, left to right: after a match the
search resumes where it ended (one further on after an empty match). `skip`
counts the characters still inside the last match. -/
def Re.matchAllFrom (ic : Bool) (r : Re) : Nat → Nat → List Char → List (List Char)
  | pos, 0, [] =>
    match r.run ic some ⟨pos, [], none⟩ with
    | some _ => [[]]
    | none => []
  | _, _ + 1, [] => []
  | pos, skip + 1, _ :: t => Re.matchAllFrom ic r (pos + 1) skip t
  | pos, 0, c :: t =>
    match r.run ic some ⟨pos, c :: t, none⟩ with
    | some st =>
      let m := (c :: t).take ((c :: t).length - st.rest.length)
      m :: Re.matchAllFrom ic r (pos + 1) (m.length - 1) t
    | none => Re.matchAllFrom ic r (pos + 1) 0 t

/-- The call `text.match(r)` for `r` with the `g` flag: `null` when nothing matches. -/
def Re.matchAll (ic : Bool) (r : Re) (text : List Char) : Option (List (List Char)) :=
  match r.matchAllFrom ic 0 0 text with
  | [] => none
  | m :: ms => some (m :: ms)

/-! ## The regular expressions of the generate handler -/

/-- The expression `/Title:\s*(.+?)(?=\n|$)/i` -/
def titleRe : Re :=
  Re.str "Title:".toList
    (.seq (.star isSpace) (.seq (.group (.plusLazy isDot)) (.look (.alt (.chr '\n') .eos))))

/-- The expression `/Ingredients:\s*([\s\S]+?)(?=Instructions:|$)/i` -/
def ingredientsRe : Re :=
  Re.str "Ingredients:".toList
    (.seq (.star isSpace)
      (.seq (.group (.plusLazy isAny))
        (.look (.alt (Re.str "Instructions".toList (.chr ':')) .eos))))

/-- The expression `/Instructions:\s*([\s\S]+)/i` -/
def instructionsRe : Re :=
  Re.str "Instructions:".toList (.seq (.star isSpace) (.group (.plus isAny)))

/-- The expression `/^[-•*\d]+\.?\s*/` -/
def bulletRe : Re :=
  .seq .bos (.seq (.plus isBullet) (.seq (.opt isPeriod) (.star isSpace)))

/-- The expression `/^\d+\.?\s*/` -/
def numberRe : Re :=
  .seq .bos (.seq (.plus isDigit) (.seq (.opt isPeriod) (.star isSpace)))

/-- The expression `/[^.!?]+[.!?]+(?:\s|$)|[^.!?]+$/g` -/
def sentenceRe : Re :=
  .alt (.seq (.plus isNonTerminal) (.seq (.plus isTerminal) (.alt (.cls isSpace) .eos)))
    (.seq (.plus isNonTerminal) .eos)

/-! ## JSON values, errors, responses -/

/-- A JavaScript value as it occurs in a request body (after `express.json()`)
or in the argument of `res.json`.  Finite numbers are rationals. -/
inductive JsValue where
  | undefined
  | null
  | bool (b : Bool)
  | num (q : ℚ)
  | str (s : String)
  | arr (items : List JsValue)
  | obj (fields : List (String × JsValue))

/-- ToBoolean: the truthiness tested by `!x`, `x && y`, `x ? a : b`. -/
def JsValue.toBoolean : JsValue → Bool
  | .undefined => false
  | .null => false
  | .bool b => b
  | .num q => decide (q ≠ 0)
  | .str s => decide (s ≠ "")
  | .arr _ => true
  | .obj _ => true

/-- The function `Array.isArray`. -/
def JsValue.isArray : JsValue → Bool
  | .arr _ => true
  | _ => false

/-- The value stored under a key of an object, `none` when the object has no
such key (or the value is not an object). -/
def JsValue.get? (key : String) : JsValue → Option JsValue
  | .obj fields => (fields.find? (fun kv => kv.1 == key)).map (fun kv => kv.2)
  | _ => none

/-- A thrown error: its `name`, its `message`, the per-path messages of
`error.errors` (Mongoose validation errors), and its enumerable own properties,
which are what `JSON.stringify` keeps of it. -/
structure JsError where
  name : String
  message : String
  errors : List (String × String)
  props : List (String × JsValue)

/-- The image of an error object under `res.json`. -/
def JsError.toJson (e : JsError) : JsValue := .obj e.props

/-- The TypeError of calling `.trim()` on `undefined`. -/
def typeErrorTrim : JsError where
  name := "TypeError"
  message := "Cannot read properties of undefined (reading 'trim')"
  errors := []
  props := []

/-- A response: `res.status(status).json(body)`. -/
structure Response where
  status : Nat
  body : JsValue

/-! ## The response parser (generate handler, lines 207-246) -/

/-- The variable `titleMatch`: the match (start index, final state) or null. -/
def titleMatch (text : List Char) : Option (Nat × MState) :=
  titleRe.exec true text

/-- The variable `ingredientsSection`. -/
def ingredientsSection (text : List Char) : Option (Nat × MState) :=
  ingredientsRe.exec true text

/-- The variable `instructionsSection`. -/
def instructionsSection (text : List Char) : Option (Nat × MState) :=
  instructionsRe.exec true text

/-- The lines of a section: the section trimmed and split at line feeds, each
line with its leading marker removed and trimmed, empty lines dropped. -/
def sectionLines (marker : Re) (sect : List Char) : List (List Char) :=
  ((splitLines (trim sect)).map (fun line => trim (marker.removeFirst false line))).filter
    (fun line => decide (line.length > 0))

/-- The variable `ingredientsList`: filled when `ingredientsSection` is not
null and its group 1 is a non-empty string. -/
def ingredientsList (text : List Char) : List (List Char) :=
  match ingredientsSection text with
  | some (_, ⟨_, _, some (c :: s)⟩) => sectionLines bulletRe (c :: s)
  | _ => []

/-- The body of the `flatMap` callback: the sentences of one instruction line. -/
def sentencesOf (line : List Char) : List (List Char) :=
  let sentences :=
    match sentenceRe.matchAll false line with
    | some ms => ms
    | none => [line]
  (sentences.map trim).filter (fun s => decide (s.length > 0))

/-- The variable `instructionsList`. -/
def instructionsList (text : List Char) : List (List Char) :=
  match instructionsSection text with
  | some (_, ⟨_, _, some (c :: s)⟩) => (sectionLines numberRe (c :: s)).flatMap sentencesOf
  | _ => []

/-- The object `generatedRecipe`. -/
structure GeneratedRecipe where
  title : List Char
  ingredients : List (List Char)
  instructions : List (List Char)
  originalAIResponse : List Char
deriving DecidableEq, Repr

/-- The expression `titleMatch ? titleMatch[1].trim() : 'Generated Recipe'`;
calling `.trim()` on an undefined group would throw. -/
def titleOf (text : List Char) : Except JsError (List Char) :=
  match titleMatch text with
  | some (_, ⟨_, _, some t⟩) => .ok (trim t)
  | some (_, ⟨_, _, none⟩) => .error typeErrorTrim
  | none => .ok "Generated Recipe".toList

/-- The parsing steps of the generate handler, applied to the upstream text. -/
def parseResponse (text : List Char) : Except JsError GeneratedRecipe :=
  match titleOf text with
  | .ok title =>
    .ok { title := title
          ingredients := ingredientsList text
          instructions := instructionsList text
          originalAIResponse := text }
  | .error e => .error e

/-! ## The handlers -/

/-- The fields a recipe handler reads from `req.body`; an absent field is
`undefined`. -/
structure RecipeBody where
  title : JsValue
  ingredients : JsValue
  instructions : JsValue
  image : JsValue
  nutrition : JsValue

/-- The object `{ title, ingredients, instructions, image, nutrition }`. -/
def RecipeBody.toJson (b : RecipeBody) : JsValue :=
  .obj [("title", b.title), ("ingredients", b.ingredients), ("instructions", b.instructions),
    ("image", b.image), ("nutrition", b.nutrition)]

/-- A call to the document store (the Mongoose model `Recipe`). -/
inductive StoreCall where
  | find
  | findById (id : String)
  | findByIdAndUpdate (id : String) (update : JsValue)
  | findByIdAndDelete (id : String)
  | save (doc : JsValue)

/-- How an awaited call ends: with a value, or with a thrown error. -/
inductive Outcome where
  | resolved (v : JsValue)
  | rejected (e : JsError)

/-- What a store handler does with a request: it answers at once, or it makes
one store call and answers from its outcome. -/
inductive Handling where
  | respond (res : Response)
  | await (call : StoreCall) (k : Outcome → Response)

/-- The response a handling ends in, given the store. -/
def Handling.response (store : StoreCall → Outcome) : Handling → Response
  | .respond res => res
  | .await call k => k (store call)

/-- The store calls a handling makes. -/
def Handling.calls : Handling → List StoreCall
  | .respond _ => []
  | .await call _ => [call]

/-- The expression
`process.env.NODE_ENV === 'production' ? 'Internal server error' : error.message`. -/
def errorText (nodeEnv : Option String) (e : JsError) : JsValue :=
  if nodeEnv = some "production" then .str "Internal server error" else .str e.message

/-- The 500 response of the handlers that guard the error text. -/
def serverError (nodeEnv : Option String) (message : String) (e : JsError) : Response :=
  ⟨500, .obj [("message", .str message), ("error", errorText nodeEnv e)]⟩

/-- The 400 response `{ message }`. -/
def badRequest (message : String) : Response :=
  ⟨400, .obj [("message", .str message)]⟩

/-- The 404 response. -/
def notFound : Response :=
  ⟨404, .obj [("message", .str "Recipe not found")]⟩

/-- The 400 response for `error.name === 'ValidationError'`: `details` maps each
key of `error.errors` to its message. -/
def validationFailed (e : JsError) : Response :=
  ⟨400, .obj [("message", .str "Validation failed"),
    ("details", .obj (e.errors.map (fun kv => (kv.1, JsValue.str kv.2))))]⟩

/-- Handler of `GET /api/recipes`. -/
def getRecipes : Handling :=
  .await .find (fun o =>
    match o with
    | .resolved recipes => ⟨200, recipes⟩
    | .rejected error =>
      ⟨500, .obj [("message", .str "Failed to fetch recipes"), ("error", error.toJson)]⟩)

/-- Handler of `GET /api/recipes/:id`.  `isValid` is
`mongoose.Types.ObjectId.isValid`. -/
def getRecipeById (isValid : String → Bool) (nodeEnv : Option String) (id : String) :
    Handling :=
  if !isValid id then .respond (badRequest "Invalid recipe ID format")
  else
    .await (.findById id) (fun o =>
      match o with
      | .resolved recipe => if !recipe.toBoolean then notFound else ⟨200, recipe⟩
      | .rejected error => serverError nodeEnv "Failed to fetch recipe" error)

/-- Handler of `PUT /api/recipes/:id`. -/
def updateRecipe (isValid : String → Bool) (nodeEnv : Option String) (id : String)
    (body : RecipeBody) : Handling :=
  if !isValid id then .respond (badRequest "Invalid recipe ID format")
  else if body.ingredients.toBoolean && !body.ingredients.isArray then
    .respond (badRequest "Ingredients must be an array")
  else
    .await (.findByIdAndUpdate id body.toJson) (fun o =>
      match o with
      | .resolved updatedRecipe =>
        if !updatedRecipe.toBoolean then notFound else ⟨200, updatedRecipe⟩
      | .rejected error =>
        if error.name = "ValidationError" then validationFailed error
        else serverError nodeEnv "Failed to update recipe" error)

/-- Handler of `DELETE /api/recipes/:id`. -/
def deleteRecipe (isValid : String → Bool) (nodeEnv : Option String) (id : String) :
    Handling :=
  if !isValid id then .respond (badRequest "Invalid recipe ID format")
  else
    .await (.findByIdAndDelete id) (fun o =>
      match o with
      | .resolved deletedRecipe =>
        if !deletedRecipe.toBoolean then notFound
        else ⟨200, .obj [("message", .str "Recipe deleted successfully")]⟩
      | .rejected error => serverError nodeEnv "Failed to delete recipe" error)

/-- The `details` object of the required-field check. -/
def missingDetails (body : RecipeBody) : JsValue :=
  .obj [("title", if body.title.toBoolean then .null else .str "Title is required"),
    ("ingredients",
      if body.ingredients.toBoolean then .null else .str "Ingredients are required"),
    ("instructions",
      if body.instructions.toBoolean then .null else .str "Instructions are required")]

/-- Handler of `POST /api/recipes`.  On success the response body is the new
document, which the store returns. -/
def createRecipe (nodeEnv : Option String) (body : RecipeBody) : Handling :=
  if !body.title.toBoolean || !body.ingredients.toBoolean || !body.instructions.toBoolean then
    .respond ⟨400, .obj [("message", .str "Missing required fields"),
      ("details", missingDetails body)]⟩
  else if !body.ingredients.isArray then
    .respond (badRequest "Ingredients must be an array")
  else
    .await (.save body.toJson) (fun o =>
      match o with
      | .resolved newRecipe => ⟨201, newRecipe⟩
      | .rejected error =>
        if error.name = "ValidationError" then validationFailed error
        else serverError nodeEnv "Failed to create recipe" error)

/-- The argument of `res.status(200).json(generatedRecipe)`. -/
def GeneratedRecipe.toJson (r : GeneratedRecipe) : JsValue :=
  .obj [("title", .str (String.mk r.title)),
    ("ingredients", .arr (r.ingredients.map (fun s => JsValue.str (String.mk s)))),
    ("instructions", .arr (r.instructions.map (fun s => JsValue.str (String.mk s)))),
    ("originalAIResponse", .str (String.mk r.originalAIResponse))]

/-- How the call to the text-generation service ends: with the text of the
response, or with a thrown error. -/
inductive Upstream where
  | text (t : String)
  | failed (e : JsError)

/-- What the generate handler does with a request: it answers at once, or it
asks the generation service and answers from its outcome. -/
inductive Generation where
  | respond (res : Response)
  | ask (k : Upstream → Response)

/-- The response a generation ends in, given the outcome of the upstream call. -/
def Generation.response (up : Upstream) : Generation → Response
  | .respond res => res
  | .ask k => k up

/-- Whether a generation asked the upstream service. -/
def Generation.asked : Generation → Bool
  | .respond _ => false
  | .ask _ => true

/-- The length test `ingredients.length === 0` on an array. -/
def JsValue.isEmptyArray : JsValue → Bool
  | .arr [] => true
  | _ => false

/-- Handler of `POST /api/recipes/generate`.  The prompt sent upstream is not
part of the model; the outcome of the upstream call is the argument of the
continuation. -/
def generateRecipe (nodeEnv : Option String) (ingredients : JsValue) : Generation :=
  if !ingredients.toBoolean || !ingredients.isArray || ingredients.isEmptyArray then
    .respond (badRequest "Please provide a non-empty array of ingredients")
  else
    .ask (fun up =>
      match up with
      | .text t =>
        match parseResponse t.toList with
        | .ok generatedRecipe => ⟨200, generatedRecipe.toJson⟩
        | .error error => serverError nodeEnv "Failed to generate recipe" error
      | .failed error => serverError nodeEnv "Failed to generate recipe" error)


/-! ## Notions used in the statements and proofs -/

/-- A response in the format the prompt asks for (lines 191-200): a title
line, an `Ingredients:` section of `- ` items, and an `Instructions:` section
of steps numbered from 1 in decimal. -/
def wellFormedText (title : List Char) (items steps : List (List Char)) : List Char :=
  "Title: ".toList ++ title ++ "\nIngredients:\n".toList ++
    "\n".toList.intercalate (items.map (fun i => "- ".toList ++ i)) ++
    "\nInstructions:\n".toList ++
    "\n".toList.intercalate
      ((steps.enumFrom 1).map (fun ks => Nat.toDigits 10 ks.1 ++ ". ".toList ++ ks.2))

/-- The text `s` starts with the literal `cs`, in any letter case. -/
def StartsWithCI (cs s : List Char) : Prop :=
  ∃ m, m <+: s ∧ m.map Char.toUpper = cs.map Char.toUpper

/-- No occurrence of the literal `cs`, in any letter case, starts inside `w`
when `w` is followed by `v`. -/
def NoStart (cs w v : List Char) : Prop :=
  ∀ w₁ w₂, w = w₁ ++ w₂ → w₂ ≠ [] → ¬ StartsWithCI cs (w₂ ++ v)

/-! ## The matcher: where a result comes from -/

theorem first_eq_some {α : Type} {a b : Option α} {x : α} (h : first a b = some x) :
    a = some x ∨ b = some x := by
  unfold first at h
  split at h
  · exact Or.inl h
  · exact Or.inr h

theorem starLoop_result (p : Char → Bool) (k : MState → Option MState) :
    ∀ (s : List Char) (pos : Nat) (cap : Option (List Char)) (res : MState),
      starLoop p k s pos cap = some res →
      ∃ st, k st = some res ∧ st.rest <:+ s ∧ st.cap = cap := by
  intro s
  induction s with
  | nil =>
    intro pos cap res h
    exact ⟨_, h, List.suffix_refl _, rfl⟩
  | cons c t ih =>
    intro pos cap res h
    unfold starLoop at h
    split at h
    · rcases first_eq_some h with h1 | h1
      · obtain ⟨st, hk, hs, hc⟩ := ih _ _ _ h1
        exact ⟨st, hk, hs.trans (List.suffix_cons c t), hc⟩
      · exact ⟨_, h1, List.suffix_refl _, rfl⟩
    · exact ⟨_, h, List.suffix_refl _, rfl⟩

theorem lazyLoop_result (p : Char → Bool) (k : MState → Option MState) :
    ∀ (s : List Char) (pos : Nat) (cap : Option (List Char)) (res : MState),
      lazyLoop p k s pos cap = some res →
      ∃ st, k st = some res ∧ st.rest <:+ s ∧ st.cap = cap := by
  intro s
  induction s with
  | nil =>
    intro pos cap res h
    simp [lazyLoop] at h
  | cons c t ih =>
    intro pos cap res h
    unfold lazyLoop at h
    split at h
    · rcases first_eq_some h with h1 | h1
      · exact ⟨_, h1, List.suffix_cons c t, rfl⟩
      · obtain ⟨st, hk, hs, hc⟩ := ih _ _ _ h1
        exact ⟨st, hk, hs.trans (List.suffix_cons c t), hc⟩
    · cases h

theorem run_result (ic : Bool) (r : Re) :
    ∀ (k : MState → Option MState) (st res : MState),
      r.run ic k st = some res → ∃ st', k st' = some res ∧ st'.rest <:+ st.rest := by
  induction r with
  | chr c =>
    intro k st res h
    unfold Re.run at h
    split at h
    · cases h
    · rename_i d t hd
      split at h
      · exact ⟨_, h, by rw [hd]; exact List.suffix_cons d t⟩
      · cases h
  | cls p =>
    intro k st res h
    unfold Re.run at h
    split at h
    · cases h
    · rename_i d t hd
      split at h
      · exact ⟨_, h, by rw [hd]; exact List.suffix_cons d t⟩
      · cases h
  | star p =>
    intro k st res h
    unfold Re.run at h
    obtain ⟨st', hk, hs, _⟩ := starLoop_result p k _ _ _ _ h
    exact ⟨st', hk, hs⟩
  | plus p =>
    intro k st res h
    unfold Re.run at h
    split at h
    · cases h
    · rename_i d t hd
      split at h
      · obtain ⟨st', hk, hs, _⟩ := starLoop_result p k _ _ _ _ h
        exact ⟨st', hk, by rw [hd]; exact hs.trans (List.suffix_cons d t)⟩
      · cases h
  | plusLazy p =>
    intro k st res h
    unfold Re.run at h
    obtain ⟨st', hk, hs, _⟩ := lazyLoop_result p k _ _ _ _ h
    exact ⟨st', hk, hs⟩
  | opt p =>
    intro k st res h
    unfold Re.run at h
    split at h
    · exact ⟨st, h, List.suffix_refl _⟩
    · rename_i d t hd
      split at h
      · rcases first_eq_some h with h1 | h1
        · exact ⟨_, h1, by rw [hd]; exact List.suffix_cons d t⟩
        · exact ⟨st, h1, List.suffix_refl _⟩
      · exact ⟨st, h, List.suffix_refl _⟩
  | bos =>
    intro k st res h
    unfold Re.run at h
    split at h
    · exact ⟨st, h, List.suffix_refl _⟩
    · cases h
  | eos =>
    intro k st res h
    unfold Re.run at h
    split at h
    · exact ⟨st, h, List.suffix_refl _⟩
    · cases h
  | look r _ =>
    intro k st res h
    unfold Re.run at h
    split at h
    · exact ⟨st, h, List.suffix_refl _⟩
    · cases h
  | group r ih =>
    intro k st res h
    unfold Re.run at h
    obtain ⟨st', hk, hs⟩ := ih _ _ _ h
    exact ⟨_, hk, hs⟩
  | seq a b iha ihb =>
    intro k st res h
    unfold Re.run at h
    obtain ⟨st1, h1, hs1⟩ := iha _ _ _ h
    obtain ⟨st2, h2, hs2⟩ := ihb _ _ _ h1
    exact ⟨st2, h2, hs2.trans hs1⟩
  | alt a b iha ihb =>
    intro k st res h
    unfold Re.run at h
    rcases first_eq_some h with h1 | h1
    · exact iha _ _ _ h1
    · exact ihb _ _ _ h1

theorem run_str_result (ic : Bool) (r : Re) (k : MState → Option MState) :
    ∀ (cs : List Char) (st res : MState),
      (Re.str cs r).run ic k st = some res →
      ∃ st', r.run ic k st' = some res ∧ st'.rest <:+ st.rest := by
  intro cs
  induction cs with
  | nil =>
    intro st res h
    exact ⟨st, h, List.suffix_refl _⟩
  | cons c cs ih =>
    intro st res h
    unfold Re.str Re.run at h
    obtain ⟨st1, h1, hs1⟩ := run_result ic (.chr c) _ _ _ h
    obtain ⟨st2, h2, hs2⟩ := ih _ _ h1
    exact ⟨st2, h2, hs2.trans hs1⟩

theorem searchFrom_result (ic : Bool) (r : Re) :
    ∀ (s : List Char) (pos i : Nat) (st : MState),
      r.searchFrom ic pos s = some (i, st) →
      ∃ pos' s', s' <:+ s ∧ r.run ic some ⟨pos', s', none⟩ = some st := by
  intro s
  induction s with
  | nil =>
    intro pos i st h
    unfold Re.searchFrom at h
    split at h
    · rename_i st' hst
      cases h
      exact ⟨_, _, List.suffix_refl _, hst⟩
    · cases h
  | cons c t ih =>
    intro pos i st h
    unfold Re.searchFrom at h
    split at h
    · rename_i st' hst
      cases h
      exact ⟨_, _, List.suffix_refl _, hst⟩
    · obtain ⟨pos', s', hs, hr⟩ := ih _ _ _ h
      exact ⟨pos', s', hs.trans (List.suffix_cons c t), hr⟩

/-- Group 1 takes part in every match of the title expression. -/
theorem titleMatch_cap (text : List Char) (i : Nat) (st : MState)
    (h : titleMatch text = some (i, st)) : ∃ t, st.cap = some t := by
  obtain ⟨pos, s, _, hr⟩ := searchFrom_result true titleRe text 0 i st h
  obtain ⟨st1, h1, _⟩ := run_str_result true _ some _ _ _ hr
  unfold Re.run at h1
  obtain ⟨st2, h2, _⟩ := run_result true _ _ _ _ h1
  unfold Re.run at h2
  unfold Re.run at h2
  obtain ⟨st3, h3, _⟩ := run_result true _ _ _ _ h2
  unfold Re.run at h3
  split at h3
  · cases h3
    exact ⟨_, rfl⟩
  · cases h3

/-- The title expression never throws. -/
theorem titleOf_ok (text : List Char) : ∃ t, titleOf text = .ok t := by
  unfold titleOf
  split
  · exact ⟨_, rfl⟩
  · rename_i i pos rest h
    obtain ⟨t, ht⟩ := titleMatch_cap text _ _ h
    cases ht
  · exact ⟨_, rfl⟩

/-- The parser is total: it returns a recipe for every text, with the lists
computed by `ingredientsList` and `instructionsList` and the text kept. -/
theorem parseResponse_ok (text : List Char) :
    ∃ t, titleOf text = .ok t ∧
      parseResponse text = .ok ⟨t, ingredientsList text, instructionsList text, text⟩ := by
  obtain ⟨t, ht⟩ := titleOf_ok text
  exact ⟨t, ht, by unfold parseResponse; rw [ht]⟩


/-! ## Texts without markers -/

theorem canonicalize_eq_toUpper (c : Char) : canonicalize c = c.toUpper := by
  unfold canonicalize Char.toUpper
  by_cases h : 97 ≤ c.toNat ∧ c.toNat ≤ 122
  · simp [h]
  · have h' : ¬ (c.toNat ≥ 97 ∧ c.toNat ≤ 122) := h
    simp only [h', if_false]
    have : (decide (97 ≤ c.toNat) && decide (c.toNat ≤ 122)) = false := by
      simpa using h
    simp [this]

theorem chrEq_true_iff (c d : Char) : chrEq true c d = true ↔ c.toUpper = d.toUpper := by
  simp [chrEq, canonicalize_eq_toUpper]

/-- A match of a literal followed by anything starts with the literal, up to
letter case. -/
theorem run_str_prefix (r : Re) (k : MState → Option MState) :
    ∀ (cs : List Char) (st res : MState),
      (Re.str cs r).run true k st = some res →
      ∃ m, m <+: st.rest ∧ m.map Char.toUpper = cs.map Char.toUpper := by
  intro cs
  induction cs with
  | nil =>
    intro st res _
    exact ⟨[], List.nil_prefix, rfl⟩
  | cons c cs ih =>
    intro st res h
    unfold Re.str Re.run at h
    unfold Re.run at h
    split at h
    · cases h
    · rename_i d t hd
      split at h
      · rename_i hc
        obtain ⟨m, hm, hmap⟩ := ih _ _ h
        refine ⟨d :: m, ?_, ?_⟩
        · rw [hd]
          obtain ⟨u, hu⟩ := hm
          exact ⟨u, by simp at hu; simp [hu]⟩
        · rw [List.map_cons, List.map_cons, hmap, ((chrEq_true_iff c d).1 hc)]
      · cases h

/-- A text without the literal, in any letter case, has no match of the
literal followed by anything. -/
theorem exec_str_none (r : Re) (cs text : List Char)
    (h : ∀ m, m <:+: text → m.map Char.toUpper ≠ cs.map Char.toUpper) :
    (Re.str cs r).exec true text = none := by
  cases hx : (Re.str cs r).exec true text with
  | none => rfl
  | some p =>
    obtain ⟨i, st⟩ := p
    obtain ⟨pos, s, hs, hr⟩ := searchFrom_result true _ text 0 i st hx
    obtain ⟨m, hm, hmap⟩ := run_str_prefix r some cs _ _ hr
    exact absurd hmap (h m (hm.isInfix.trans hs.isInfix))

/-- A decidable test for the absence of a literal in any letter case. -/
theorem no_infix_of_tails (cs text : List Char)
    (h : (text.tails.all (fun s => !(cs.isPrefixOf (s.map Char.toUpper)))) = true) :
    ∀ m, m <:+: text → m.map Char.toUpper ≠ cs := by
  intro m hm hcs
  obtain ⟨t, hp, hs⟩ := List.infix_iff_prefix_suffix.1 hm
  have ht : t ∈ text.tails := (List.mem_tails _ _).2 hs
  have h' := List.all_eq_true.1 h t ht
  have hpre : cs <+: t.map Char.toUpper := hcs ▸ hp.map Char.toUpper
  have : cs.isPrefixOf (t.map Char.toUpper) = true := List.isPrefixOf_iff_prefix.2 hpre
  simp [this] at h'

/-- C2: a text that contains none of the markers `Title:`, `Ingredients:`,
`Instructions:`, in any letter case, is parsed without error to the
placeholder title, no ingredients and no instructions. -/
theorem parseResponse_no_markers (text : List Char)
    (h₁ : ∀ m, m <:+: text → m.map Char.toUpper ≠ "TITLE:".toList)
    (h₂ : ∀ m, m <:+: text → m.map Char.toUpper ≠ "INGREDIENTS:".toList)
    (h₃ : ∀ m, m <:+: text → m.map Char.toUpper ≠ "INSTRUCTIONS:".toList) :
    parseResponse text = .ok ⟨"Generated Recipe".toList, [], [], text⟩ := by
  have e₁ : titleMatch text = none := exec_str_none _ "Title:".toList text h₁
  have e₂ : ingredientsSection text = none := exec_str_none _ "Ingredients:".toList text h₂
  have e₃ : instructionsSection text = none := exec_str_none _ "Instructions:".toList text h₃
  simp [parseResponse, titleOf, ingredientsList, instructionsList, e₁, e₂, e₃]

/-- The parser at the text `Cook what you like`, which has no marker. -/
theorem parseResponse_no_markers_witness :
    parseResponse "Cook what you like".toList =
      .ok ⟨"Generated Recipe".toList, [], [], "Cook what you like".toList⟩ :=
  parseResponse_no_markers "Cook what you like".toList
    (no_infix_of_tails _ _ (by decide)) (no_infix_of_tails _ _ (by decide))
    (no_infix_of_tails _ _ (by decide))

/-! ## The matcher: computing a match -/

theorem run_seq (ic : Bool) (a b : Re) (k : MState → Option MState) (st : MState) :
    (Re.seq a b).run ic k st = a.run ic (b.run ic k) st := rfl

theorem run_alt (ic : Bool) (a b : Re) (k : MState → Option MState) (st : MState) :
    (Re.alt a b).run ic k st = first (a.run ic k st) (b.run ic k st) := rfl

theorem run_chr_cons (ic : Bool) (c d : Char) (k : MState → Option MState) (pos : Nat)
    (t : List Char) (cap : Option (List Char)) :
    (Re.chr c).run ic k ⟨pos, d :: t, cap⟩ =
      if chrEq ic c d then k ⟨pos + 1, t, cap⟩ else none := rfl

theorem run_chr_nil (ic : Bool) (c : Char) (k : MState → Option MState) (pos : Nat)
    (cap : Option (List Char)) : (Re.chr c).run ic k ⟨pos, [], cap⟩ = none := rfl

theorem run_cls_cons (ic : Bool) (p : Char → Bool) (d : Char) (k : MState → Option MState)
    (pos : Nat) (t : List Char) (cap : Option (List Char)) :
    (Re.cls p).run ic k ⟨pos, d :: t, cap⟩ = if p d then k ⟨pos + 1, t, cap⟩ else none := rfl

theorem run_cls_nil (ic : Bool) (p : Char → Bool) (k : MState → Option MState) (pos : Nat)
    (cap : Option (List Char)) : (Re.cls p).run ic k ⟨pos, [], cap⟩ = none := rfl

theorem run_star (ic : Bool) (p : Char → Bool) (k : MState → Option MState) (st : MState) :
    (Re.star p).run ic k st = starLoop p k st.rest st.pos st.cap := rfl

theorem run_plus_cons (ic : Bool) (p : Char → Bool) (d : Char) (k : MState → Option MState)
    (pos : Nat) (t : List Char) (cap : Option (List Char)) :
    (Re.plus p).run ic k ⟨pos, d :: t, cap⟩ =
      if p d then starLoop p k t (pos + 1) cap else none := rfl

theorem run_plus_nil (ic : Bool) (p : Char → Bool) (k : MState → Option MState) (pos : Nat)
    (cap : Option (List Char)) : (Re.plus p).run ic k ⟨pos, [], cap⟩ = none := rfl

theorem run_plusLazy (ic : Bool) (p : Char → Bool) (k : MState → Option MState)
    (st : MState) : (Re.plusLazy p).run ic k st = lazyLoop p k st.rest st.pos st.cap := rfl

theorem run_opt_cons (ic : Bool) (p : Char → Bool) (d : Char) (k : MState → Option MState)
    (pos : Nat) (t : List Char) (cap : Option (List Char)) :
    (Re.opt p).run ic k ⟨pos, d :: t, cap⟩ =
      if p d then first (k ⟨pos + 1, t, cap⟩) (k ⟨pos, d :: t, cap⟩)
      else k ⟨pos, d :: t, cap⟩ := rfl

theorem run_bos (ic : Bool) (k : MState → Option MState) (st : MState) :
    Re.bos.run ic k st = if st.pos = 0 then k st else none := rfl

theorem run_eos_nil (ic : Bool) (k : MState → Option MState) (pos : Nat)
    (cap : Option (List Char)) : Re.eos.run ic k ⟨pos, [], cap⟩ = k ⟨pos, [], cap⟩ := rfl

theorem run_eos_cons (ic : Bool) (k : MState → Option MState) (pos : Nat) (d : Char)
    (t : List Char) (cap : Option (List Char)) :
    Re.eos.run ic k ⟨pos, d :: t, cap⟩ = none := rfl

theorem run_look (ic : Bool) (r : Re) (k : MState → Option MState) (st : MState) :
    (Re.look r).run ic k st =
      match r.run ic some st with
      | some _ => k st
      | none => none := rfl

theorem run_group (ic : Bool) (r : Re) (k : MState → Option MState) (st : MState) :
    (Re.group r).run ic k st =
      r.run ic (fun st' =>
        k ⟨st'.pos, st'.rest, some (st.rest.take (st.rest.length - st'.rest.length))⟩) st := rfl

theorem str_nil (r : Re) : Re.str [] r = r := rfl

theorem str_cons (c : Char) (cs : List Char) (r : Re) :
    Re.str (c :: cs) r = .seq (.chr c) (Re.str cs r) := rfl

theorem toNat_ofNat_small (m : Nat) (h : m < 0xd800) : (Char.ofNat m).toNat = m := by
  have hv : m.isValidChar := Or.inl h
  simp [Char.ofNat, hv, Char.ofNatAux, Char.toNat, UInt32.toNat]

theorem toUpper_eq_lf (c : Char) (h : c.toUpper = '\n') : c = '\n' := by
  unfold Char.toUpper at h
  by_cases hc : c.toNat ≥ 97 ∧ c.toNat ≤ 122
  · simp only [hc, and_self, if_true] at h
    have h2 := congrArg Char.toNat h
    rw [toNat_ofNat_small _ (by omega)] at h2
    have : ('\n' : Char).toNat = 10 := by decide
    omega
  · simpa [hc] using h

theorem chrEq_self (ic : Bool) (c : Char) : chrEq ic c c = true := by
  cases ic <;> simp [chrEq]

theorem chrEq_lf (d : Char) (h : d ≠ '\n') : chrEq true '\n' d = false := by
  cases hx : chrEq true '\n' d with
  | false => rfl
  | true =>
    have h1 := (chrEq_true_iff _ _).1 hx
    have h2 : ('\n' : Char).toUpper = '\n' := by decide
    rw [h2] at h1
    exact absurd (toUpper_eq_lf d h1.symm) h

/-- A literal matches itself. -/
theorem run_str_self (ic : Bool) (r : Re) (k : MState → Option MState) :
    ∀ (cs s : List Char) (pos : Nat) (cap : Option (List Char)),
      (Re.str cs r).run ic k ⟨pos, cs ++ s, cap⟩ = r.run ic k ⟨pos + cs.length, s, cap⟩ := by
  intro cs
  induction cs with
  | nil =>
    intro s pos cap
    rfl
  | cons c cs ih =>
    intro s pos cap
    rw [str_cons, run_seq, List.cons_append, run_chr_cons, chrEq_self, if_pos rfl, ih]
    have e : pos + 1 + cs.length = pos + (c :: cs).length := by
      simp only [List.length_cons]
      omega
    rw [e]

/-- A greedy loop that can take all of `w` and no more hands the rest to its
continuation when the continuation accepts it. -/
theorem starLoop_greedy (p : Char → Bool) (k : MState → Option MState) (rest : List Char)
    (hrest : ∀ c, rest.head? = some c → p c = false) :
    ∀ (w : List Char) (pos : Nat) (cap : Option (List Char)) (x : MState),
      (∀ c ∈ w, p c = true) → k ⟨pos + w.length, rest, cap⟩ = some x →
      starLoop p k (w ++ rest) pos cap = some x := by
  intro w
  induction w with
  | nil =>
    intro pos cap x _ hk
    simp only [List.nil_append, List.length_nil, Nat.add_zero] at *
    cases rest with
    | nil => exact hk
    | cons c t =>
      unfold starLoop
      rw [hrest c rfl]
      exact hk
  | cons c w ih =>
    intro pos cap x hw hk
    simp only [List.cons_append]
    unfold starLoop
    rw [hw c (List.mem_cons_self _ _)]
    simp only [if_true]
    have e : pos + 1 + w.length = pos + (c :: w).length := by
      simp only [List.length_cons]
      omega
    have hk' : k ⟨pos + 1 + w.length, rest, cap⟩ = some x := by
      rw [e]
      exact hk
    rw [ih (pos + 1) cap x (fun c hc => hw c (List.mem_cons_of_mem _ hc)) hk']
    rfl

/-- A lazy loop stops at the first place where its continuation accepts. -/
theorem lazyLoop_first (p : Char → Bool) (k : MState → Option MState) (rest : List Char) :
    ∀ (w : List Char) (pos : Nat) (cap : Option (List Char)) (x : MState),
      w ≠ [] → (∀ c ∈ w, p c = true) →
      (∀ w₁ w₂, w = w₁ ++ w₂ → w₁ ≠ [] → w₂ ≠ [] →
        k ⟨pos + w₁.length, w₂ ++ rest, cap⟩ = none) →
      k ⟨pos + w.length, rest, cap⟩ = some x →
      lazyLoop p k (w ++ rest) pos cap = some x := by
  intro w
  induction w with
  | nil =>
    intro pos cap x h
    exact absurd rfl h
  | cons c w ih =>
    intro pos cap x _ hw hfail hk
    simp only [List.cons_append]
    unfold lazyLoop
    rw [hw c (List.mem_cons_self _ _)]
    simp only [if_true]
    cases w with
    | nil =>
      simp only [List.length_cons, List.length_nil, List.nil_append] at hk ⊢
      rw [hk]
      rfl
    | cons d w =>
      have h1 : k ⟨pos + 1, (d :: w) ++ rest, cap⟩ = none := by
        have := hfail [c] (d :: w) rfl (by simp) (by simp)
        simpa using this
      rw [h1]
      show lazyLoop p k ((d :: w) ++ rest) (pos + 1) cap = some x
      apply ih (pos + 1) cap x (by simp) (fun c hc => hw c (List.mem_cons_of_mem _ hc))
      · intro w₁ w₂ hsplit hw₁ hw₂
        have := hfail (c :: w₁) w₂ (by rw [hsplit]; rfl) (by simp) hw₂
        have e : pos + 1 + w₁.length = pos + (c :: w₁).length := by
          simp only [List.length_cons]
          omega
        rw [e]
        exact this
      · have e : pos + 1 + (d :: w).length = pos + (c :: d :: w).length := by
          simp only [List.length_cons]
          omega
        rw [e]
        exact hk

/-! ## Elements of the parsed lists -/

theorem mem_of_mem_trim {s : List Char} {c : Char} (h : c ∈ trim s) : c ∈ s :=
  (List.dropWhile_suffix isSpace).subset (( List.rdropWhile_prefix isSpace _).subset h)

/-- A trimmed string that is not empty starts and ends with a character that
is not white space. -/
theorem trim_ends (s : List Char) :
    (∀ c, (trim s).head? = some c → isSpace c = false) ∧
    (∀ c, (trim s).getLast? = some c → isSpace c = false) := by
  constructor
  · intro c hc
    have hne : trim s ≠ [] := by
      intro h
      rw [h] at hc
      cases hc
    obtain ⟨u, hu⟩ := List.rdropWhile_prefix isSpace (s.dropWhile isSpace)
    have hd : (s.dropWhile isSpace).head? = some c := by
      rw [← hu]
      change (trim s ++ u).head? = some c
      cases ht : trim s with
      | nil => exact absurd ht hne
      | cons a t =>
        rw [ht] at hc
        simpa using hc
    have := List.head?_dropWhile_not isSpace s
    rw [hd] at this
    simpa using this
  · intro c hc
    have hne : (s.dropWhile isSpace).rdropWhile isSpace ≠ [] := by
      intro h
      unfold trim at hc
      rw [h] at hc
      cases hc
    have h1 := List.rdropWhile_last_not isSpace (s.dropWhile isSpace) hne
    have h2 : (trim s).getLast? = some (((s.dropWhile isSpace).rdropWhile isSpace).getLast hne) :=
      List.getLast?_eq_getLast _ hne
    rw [h2] at hc
    cases hc
    simpa using h1

theorem not_mem_splitLines : ∀ (s l : List Char), l ∈ splitLines s → '\n' ∉ l := by
  intro s
  induction s with
  | nil =>
    intro l hl
    simp [splitLines] at hl
    simp [hl]
  | cons c t ih =>
    intro l hl
    unfold splitLines at hl
    split at hl
    · rcases List.mem_cons.1 hl with h | h
      · simp [h]
      · exact ih l h
    · rename_i hc
      split at hl
      · simp at hl
        simp [hl]
        exact fun h => hc h.symm
      · rename_i l' ls hs
        rcases List.mem_cons.1 hl with h | h
        · rw [h]
          have := ih l' (by rw [hs]; exact List.mem_cons_self _ _)
          simp
          exact ⟨fun h => hc h.symm, this⟩
        · exact ih l (by rw [hs]; exact List.mem_cons_of_mem _ h)

/-- What `replace` leaves is made of characters of the line. -/
theorem mem_of_mem_removeFirst (ic : Bool) (r : Re) {line : List Char} {c : Char}
    (h : c ∈ r.removeFirst ic line) : c ∈ line := by
  unfold Re.removeFirst at h
  split at h
  · rename_i start st hx
    obtain ⟨pos, s, hs, hr⟩ := searchFrom_result ic r line 0 start st hx
    obtain ⟨st', hk, hs'⟩ := run_result ic r some _ _ hr
    cases hk
    rcases List.mem_append.1 h with h | h
    · exact List.mem_of_mem_take h
    · exact hs.subset (hs'.subset h)
  · exact h

/-- Every match of a global search is a piece of the text. -/
theorem matchAllFrom_piece (ic : Bool) (r : Re) :
    ∀ (s : List Char) (pos skip : Nat) (m : List Char),
      m ∈ r.matchAllFrom ic pos skip s → m <:+: s := by
  intro s
  induction s with
  | nil =>
    intro pos skip m hm
    cases skip with
    | zero =>
      unfold Re.matchAllFrom at hm
      split at hm
      · simp at hm
        rw [hm]
      · cases hm
    | succ n =>
      unfold Re.matchAllFrom at hm
      cases hm
  | cons c t ih =>
    intro pos skip m hm
    cases skip with
    | succ n =>
      unfold Re.matchAllFrom at hm
      exact (ih _ _ m hm).trans (List.suffix_cons c t).isInfix
    | zero =>
      unfold Re.matchAllFrom at hm
      split at hm
      · rcases List.mem_cons.1 hm with h | h
        · rw [h]
          exact ( List.take_prefix _ _).isInfix
        · exact (ih _ _ m h).trans (List.suffix_cons c t).isInfix
      · exact (ih _ _ m hm).trans (List.suffix_cons c t).isInfix

/-- The lines of a section are not empty, start and end with a character that
is not white space, and have no line feed. -/
theorem sectionLines_clean (marker : Re) (sect x : List Char)
    (hx : x ∈ sectionLines marker sect) :
    x ≠ [] ∧ (∀ c, x.head? = some c → isSpace c = false) ∧
      (∀ c, x.getLast? = some c → isSpace c = false) ∧ '\n' ∉ x := by
  unfold sectionLines at hx
  obtain ⟨hm, hlen⟩ := List.mem_filter.1 hx
  obtain ⟨line, hline, rfl⟩ := List.mem_map.1 hm
  refine ⟨?_, (trim_ends _).1, (trim_ends _).2, ?_⟩
  · intro h
    rw [h] at hlen
    simp at hlen
  · intro h
    exact not_mem_splitLines _ _ hline (mem_of_mem_removeFirst _ _ (mem_of_mem_trim h))

/-- The sentences of a line without line feed are not empty, start and end
with a character that is not white space, and have no line feed. -/
theorem sentencesOf_clean (line x : List Char) (hl : '\n' ∉ line) (hx : x ∈ sentencesOf line) :
    x ≠ [] ∧ (∀ c, x.head? = some c → isSpace c = false) ∧
      (∀ c, x.getLast? = some c → isSpace c = false) ∧ '\n' ∉ x := by
  unfold sentencesOf at hx
  obtain ⟨hm, hlen⟩ := List.mem_filter.1 hx
  obtain ⟨m, hmem, rfl⟩ := List.mem_map.1 hm
  refine ⟨?_, (trim_ends _).1, (trim_ends _).2, ?_⟩
  · intro h
    rw [h] at hlen
    simp at hlen
  · intro h
    have hm' : '\n' ∈ m := mem_of_mem_trim h
    apply hl
    split at hmem
    · rename_i ms hms
      unfold Re.matchAll at hms
      split at hms
      · cases hms
      · rename_i m0 ms0 heq
        cases hms
        rw [← heq] at hmem
        exact (matchAllFrom_piece _ _ _ _ _ _ hmem).subset hm'
    · simp at hmem
      rw [← hmem]
      exact hm'


/-- C10: for every upstream text the parser returns a recipe, and every element
of its ingredients list and of its instructions list is a non-empty string, has
no white space at its start or its end, and contains no line feed. -/
theorem parsed_elements_clean (text : List Char) :
    ∃ r, parseResponse text = .ok r ∧
      ∀ x, x ∈ r.ingredients ∨ x ∈ r.instructions →
        x ≠ [] ∧ (∀ c, x.head? = some c → isSpace c = false) ∧
          (∀ c, x.getLast? = some c → isSpace c = false) ∧ '\n' ∉ x := by
  obtain ⟨t, _, hp⟩ := parseResponse_ok text
  refine ⟨_, hp, ?_⟩
  intro x hx
  rcases hx with hx | hx
  · change x ∈ ingredientsList text at hx
    unfold ingredientsList at hx
    split at hx
    · exact sectionLines_clean _ _ _ hx
    · cases hx
  · change x ∈ instructionsList text at hx
    unfold instructionsList at hx
    split at hx
    · obtain ⟨line, hline, hxl⟩ := List.mem_flatMap.1 hx
      exact sentencesOf_clean line x (sectionLines_clean _ _ _ hline).2.2.2 hxl
    · cases hx

/-- The invariant at the text `Ingredients:` / ` - 2 eggs ` / `Instructions:` /
`1.  Whisk!  Fry. `, whose lines carry white space at both ends. -/
theorem parsed_elements_clean_witness :
    ∃ r, parseResponse "Ingredients:\n - 2 eggs \nInstructions:\n1.  Whisk!  Fry. ".toList = .ok r ∧
      ∀ x, x ∈ r.ingredients ∨ x ∈ r.instructions →
        x ≠ [] ∧ (∀ c, x.head? = some c → isSpace c = false) ∧
          (∀ c, x.getLast? = some c → isSpace c = false) ∧ '\n' ∉ x :=
  parsed_elements_clean "Ingredients:\n - 2 eggs \nInstructions:\n1.  Whisk!  Fry. ".toList
/-! ## Literals that do not occur -/

/-- A match of a literal followed by `r` consumes the literal, up to letter
case, and goes on with `r`. -/
theorem run_str_split (r : Re) (k : MState → Option MState) :
    ∀ (cs : List Char) (st res : MState),
      (Re.str cs r).run true k st = some res →
      ∃ m st', st.rest = m ++ st'.rest ∧ m.map Char.toUpper = cs.map Char.toUpper ∧
        r.run true k st' = some res := by
  intro cs
  induction cs with
  | nil =>
    intro st res h
    exact ⟨[], st, rfl, rfl, h⟩
  | cons c cs ih =>
    intro st res h
    obtain ⟨pos, rest, cap⟩ := st
    rw [str_cons, run_seq] at h
    cases rest with
    | nil => rw [run_chr_nil] at h; cases h
    | cons d t =>
      rw [run_chr_cons] at h
      split at h
      · rename_i hc
        obtain ⟨m, st', hm, hmap, hr⟩ := ih _ _ h
        refine ⟨d :: m, st', ?_, ?_, hr⟩
        · simp only at hm
          simp [hm]
        · rw [List.map_cons, List.map_cons, hmap, ((chrEq_true_iff c d).1 hc)]
      · cases h

theorem run_str_none (r : Re) (k : MState → Option MState) (cs s : List Char) (pos : Nat)
    (cap : Option (List Char)) (h : ¬ StartsWithCI cs s) :
    (Re.str cs r).run true k ⟨pos, s, cap⟩ = none := by
  cases hx : (Re.str cs r).run true k ⟨pos, s, cap⟩ with
  | none => rfl
  | some res =>
    obtain ⟨m, st', hm, hmap, _⟩ := run_str_split r k cs _ _ hx
    exact absurd ⟨m, ⟨st'.rest, hm.symm⟩, hmap⟩ h

theorem run_str_chr_none (k : MState → Option MState) (cs : List Char) (c : Char)
    (s : List Char) (pos : Nat) (cap : Option (List Char))
    (h : ¬ StartsWithCI (cs ++ [c]) s) :
    (Re.str cs (.chr c)).run true k ⟨pos, s, cap⟩ = none := by
  cases hx : (Re.str cs (.chr c)).run true k ⟨pos, s, cap⟩ with
  | none => rfl
  | some res =>
    obtain ⟨m, st', hm, hmap, hr⟩ := run_str_split _ k cs _ _ hx
    obtain ⟨pos', rest', cap'⟩ := st'
    cases rest' with
    | nil => rw [run_chr_nil] at hr; cases hr
    | cons d t =>
      rw [run_chr_cons] at hr
      split at hr
      · rename_i hc
        exfalso
        apply h
        refine ⟨m ++ [d], ⟨t, ?_⟩, ?_⟩
        · simp only at hm
          simp [hm]
        · simp [hmap, ((chrEq_true_iff c d).1 hc)]
      · cases hr

theorem noStart_nil (cs v : List Char) : NoStart cs [] v := by
  intro w₁ w₂ h hne
  have := List.append_eq_nil.1 h.symm
  exact absurd this.2 hne

theorem noStart_tail {cs : List Char} {c : Char} {w v : List Char}
    (h : NoStart cs (c :: w) v) : NoStart cs w v := by
  intro w₁ w₂ hs hne
  exact h (c :: w₁) w₂ (by rw [hs]; rfl) hne

/-- A piece `u` without the literal, followed by a character that is not in
the literal, has no start of the literal. -/
theorem noStart_chunk (cs u : List Char) (e : Char) (w v : List Char)
    (hu : ∀ m, m <:+: u → m.map Char.toUpper ≠ cs.map Char.toUpper)
    (he : e.toUpper ∉ cs.map Char.toUpper) (hcs : cs ≠ [])
    (hw : NoStart cs w v) : NoStart cs (u ++ e :: w) v := by
  intro w₁ w₂ hsplit hne hstart
  obtain ⟨m, hm, hmap⟩ := hstart
  have hmne : m ≠ [] := by
    intro h0
    rw [h0] at hmap
    cases cs with
    | nil => exact hcs rfl
    | cons a b => simp at hmap
  have hmem : ∀ {x : Char}, x ∈ m → x.toUpper ∈ cs.map Char.toUpper := by
    intro x hx
    rw [← hmap]
    exact List.mem_map_of_mem _ hx
  rcases List.append_eq_append_iff.1 hsplit with ⟨a, h1, h2⟩ | ⟨b, h1, h2⟩
  · -- the split point lies in `e :: w`
    cases a with
    | nil =>
      simp only [List.nil_append] at h2
      rw [← h2] at hm
      cases m with
      | nil => exact hmne rfl
      | cons x m' =>
        have : x = e := by
          obtain ⟨r, hr⟩ := hm
          simp at hr
          exact hr.1
        exact he (this ▸ hmem (List.mem_cons_self _ _))
    | cons x a' =>
      simp only [List.cons_append, List.cons.injEq] at h2
      exact hw a' w₂ h2.2 hne ⟨m, hm, hmap⟩
  · -- the split point lies in `u`
    rw [h2, List.append_assoc] at hm
    rcases List.prefix_or_prefix_of_prefix hm ( List.prefix_append b _) with hp | hp
    · exact hu m ((hp.isInfix).trans (h1 ▸ (List.suffix_append w₁ b).isInfix)) hmap
    · obtain ⟨m', rfl⟩ := hp
      have hm' : m' <+: (e :: w) ++ v := (List.prefix_append_right_inj b).1 hm
      cases m' with
      | nil =>
        simp only [List.append_nil] at hmap hmne
        exact hu b (h1 ▸ (List.suffix_append w₁ b).isInfix) hmap
      | cons x m'' =>
        have : x = e := by
          obtain ⟨r, hr⟩ := hm'
          simp at hr
          exact hr.1
        exact he (this ▸ hmem (by simp))

/-- The search for a literal skips a stretch in which the literal does not
start. -/
theorem searchFrom_skip (r : Re) (cs v : List Char) :
    ∀ (w : List Char) (pos : Nat), NoStart cs w v →
      (Re.str cs r).searchFrom true pos (w ++ v) =
        (Re.str cs r).searchFrom true (pos + w.length) v := by
  intro w
  induction w with
  | nil =>
    intro pos _
    rfl
  | cons c w ih =>
    intro pos h
    have h0 : ¬ StartsWithCI cs ((c :: w) ++ v) := h [] (c :: w) rfl (by simp)
    simp only [List.cons_append] at h0 ⊢
    rw [Re.searchFrom, run_str_none _ _ _ _ _ _ h0]
    simp only
    rw [ih (pos + 1) (noStart_tail h)]
    have e : pos + 1 + w.length = pos + (c :: w).length := by
      simp only [List.length_cons]
      omega
    rw [e]

/-! ## Lines joined by line feeds -/

theorem intercalate_one (sep l : List Char) : sep.intercalate [l] = l := by
  simp [List.intercalate]

theorem intercalate_cons (sep l l' : List Char) (ls : List (List Char)) :
    sep.intercalate (l :: l' :: ls) = l ++ sep ++ sep.intercalate (l' :: ls) := by
  simp [List.intercalate]

theorem splitLines_line : ∀ (l : List Char), '\n' ∉ l → splitLines l = [l] := by
  intro l
  induction l with
  | nil => intro _; rfl
  | cons c t ih =>
    intro h
    have hc : c ≠ '\n' := fun e => h (e ▸ List.mem_cons_self _ _)
    have ht : '\n' ∉ t := fun e => h (List.mem_cons_of_mem _ e)
    rw [splitLines, if_neg hc, ih ht]

theorem splitLines_append : ∀ (l s : List Char), '\n' ∉ l →
    splitLines (l ++ '\n' :: s) = l :: splitLines s := by
  intro l
  induction l with
  | nil =>
    intro s _
    simp [splitLines]
  | cons c t ih =>
    intro s h
    have hc : c ≠ '\n' := fun e => h (e ▸ List.mem_cons_self _ _)
    have ht : '\n' ∉ t := fun e => h (List.mem_cons_of_mem _ e)
    rw [List.cons_append, splitLines, if_neg hc, ih s ht]

/-- Splitting joined lines gives the lines back. -/
theorem splitLines_intercalate : ∀ (l : List Char) (ls : List (List Char)),
    (∀ x ∈ l :: ls, '\n' ∉ x) → splitLines ("\n".toList.intercalate (l :: ls)) = l :: ls := by
  intro l ls
  induction ls generalizing l with
  | nil =>
    intro h
    rw [intercalate_one]
    exact splitLines_line l (h l (List.mem_cons_self _ _))
  | cons l' ls ih =>
    intro h
    rw [intercalate_cons]
    have e : l ++ "\n".toList ++ "\n".toList.intercalate (l' :: ls) =
        l ++ '\n' :: "\n".toList.intercalate (l' :: ls) := by
      simp
    rw [e, splitLines_append _ _ (h l (List.mem_cons_self _ _)),
      ih l' (fun x hx => h x (List.mem_cons_of_mem _ hx))]

theorem head?_intercalate (sep l : List Char) (ls : List (List Char)) (hl : l ≠ []) :
    (sep.intercalate (l :: ls)).head? = l.head? := by
  cases l with
  | nil => exact absurd rfl hl
  | cons c t =>
    cases ls with
    | nil => rw [intercalate_one]
    | cons l' ls => rw [intercalate_cons]; rfl

theorem intercalate_ne_nil (sep l : List Char) (ls : List (List Char)) (hl : l ≠ []) :
    sep.intercalate (l :: ls) ≠ [] := by
  intro h
  have := head?_intercalate sep l ls hl
  rw [h] at this
  cases l with
  | nil => exact hl rfl
  | cons c t => cases this

theorem getLast?_intercalate (sep : List Char) : ∀ (ls : List (List Char)) (l : List Char),
    (∀ x ∈ l :: ls, x ≠ []) →
    (sep.intercalate (l :: ls)).getLast? = ((l :: ls).getLast (by simp)).getLast? := by
  intro ls
  induction ls with
  | nil =>
    intro l _
    rw [intercalate_one]
    rfl
  | cons l' ls ih =>
    intro l h
    rw [intercalate_cons, List.getLast?_append_of_ne_nil _
      (intercalate_ne_nil sep l' ls (h l' (by simp))),
      ih l' (fun x hx => h x (List.mem_cons_of_mem _ hx))]
    rfl

/-! ## Trimming -/

theorem dropWhile_append_all (p : Char → Bool) : ∀ (a b : List Char),
    (∀ c ∈ a, p c = true) → (a ++ b).dropWhile p = b.dropWhile p := by
  intro a
  induction a with
  | nil => intro b _; rfl
  | cons c t ih =>
    intro b h
    rw [List.cons_append, List.dropWhile_cons, h c (List.mem_cons_self _ _)]
    exact ih b (fun x hx => h x (List.mem_cons_of_mem _ hx))

theorem dropWhile_head (p : Char → Bool) (x : List Char)
    (h : ∀ c, x.head? = some c → p c = false) : x.dropWhile p = x := by
  cases x with
  | nil => rfl
  | cons c t => rw [List.dropWhile_cons, h c rfl]; rfl

theorem rdropWhile_last (p : Char → Bool) (x : List Char)
    (h : ∀ c, x.getLast? = some c → p c = false) : x.rdropWhile p = x := by
  unfold List.rdropWhile
  rw [dropWhile_head p x.reverse (by simpa using h), List.reverse_reverse]

/-- Trimming removes white space after a string that has none at its ends. -/
theorem trim_append_space (x ws : List Char) (hne : x ≠ [])
    (hh : ∀ c, x.head? = some c → isSpace c = false)
    (hl : ∀ c, x.getLast? = some c → isSpace c = false)
    (hws : ∀ c ∈ ws, isSpace c = true) : trim (x ++ ws) = x := by
  unfold trim
  have h1 : (x ++ ws).dropWhile isSpace = x ++ ws := by
    apply dropWhile_head
    intro c hc
    cases x with
    | nil => exact absurd rfl hne
    | cons a t => exact hh c hc
  rw [h1]
  unfold List.rdropWhile
  rw [List.reverse_append, dropWhile_append_all isSpace ws.reverse x.reverse
    (fun c hc => hws c (List.mem_reverse.1 hc)),
    dropWhile_head isSpace x.reverse (by simpa using hl), List.reverse_reverse]

theorem trim_self (x : List Char)
    (hh : ∀ c, x.head? = some c → isSpace c = false)
    (hl : ∀ c, x.getLast? = some c → isSpace c = false) : trim x = x := by
  unfold trim
  rw [dropWhile_head isSpace x hh, rdropWhile_last isSpace x hl]

/-- A string equal to its trimmed form has no white space at its ends. -/
theorem ends_of_trim_eq (x : List Char) (h : trim x = x) :
    (∀ c, x.head? = some c → isSpace c = false) ∧
    (∀ c, x.getLast? = some c → isSpace c = false) := by
  have := trim_ends x
  rw [h] at this
  exact this

/-! ## Decimal numbers -/

theorem isDigit_digitChar (m : Nat) (h : m < 10) : isDigit (Nat.digitChar m) = true := by
  interval_cases m <;> decide

theorem toDigitsCore_isDigit : ∀ (fuel n : Nat) (ds : List Char),
    (∀ c ∈ ds, isDigit c = true) → ∀ c ∈ Nat.toDigitsCore 10 fuel n ds, isDigit c = true := by
  intro fuel
  induction fuel with
  | zero =>
    intro n ds h c hc
    exact h c hc
  | succ fuel ih =>
    intro n ds h c hc
    have hd : ∀ x ∈ Nat.digitChar (n % 10) :: ds, isDigit x = true := by
      intro x hx
      rcases List.mem_cons.1 hx with rfl | hx
      · exact isDigit_digitChar _ (Nat.mod_lt _ (by decide))
      · exact h x hx
    unfold Nat.toDigitsCore at hc
    simp only at hc
    split at hc
    · exact hd c hc
    · exact ih _ _ hd c hc

theorem toDigitsCore_ne_nil : ∀ (fuel n : Nat) (ds : List Char), ds ≠ [] →
    Nat.toDigitsCore 10 fuel n ds ≠ [] := by
  intro fuel
  induction fuel with
  | zero => intro n ds h; exact h
  | succ fuel ih =>
    intro n ds _
    unfold Nat.toDigitsCore
    simp only
    split
    · simp
    · exact ih _ _ (by simp)

theorem toDigits_isDigit (n : Nat) : ∀ c ∈ Nat.toDigits 10 n, isDigit c = true :=
  toDigitsCore_isDigit _ _ [] (by simp)

theorem toDigits_ne_nil (n : Nat) : Nat.toDigits 10 n ≠ [] := by
  unfold Nat.toDigits Nat.toDigitsCore
  simp only
  split
  · simp
  · exact toDigitsCore_ne_nil _ _ _ (by simp)

theorem isDigit_not_space (c : Char) (h : isDigit c = true) : isSpace c = false := by
  simp only [isDigit, Bool.and_eq_true, decide_eq_true_eq] at h
  simp only [isSpace, Bool.or_eq_false_iff, Bool.and_eq_false_iff, beq_eq_false_iff_ne,
    decide_eq_false_iff_not]
  omega

theorem isDigit_ne_lf (c : Char) (h : isDigit c = true) : c ≠ '\n' := by
  intro e
  rw [e] at h
  exact absurd h (by decide)

/-! ## Removing the leading marker of a line -/

theorem starLoop_stop (p : Char → Bool) (k : MState → Option MState) (c : Char)
    (t : List Char) (pos : Nat) (cap : Option (List Char)) (h : p c = false) :
    starLoop p k (c :: t) pos cap = k ⟨pos, c :: t, cap⟩ := by
  rw [starLoop, h]
  rfl

theorem first_some {α : Type} (x : α) (b : Option α) : first (some x) b = some x := rfl

theorem first_none {α : Type} (b : Option α) : first none b = b := rfl

/-- The white space loop at the end of a marker expression: it takes the one
blank before an item that does not start with white space. -/
theorem starSpace_blank (ic : Bool) (x : List Char) (pos : Nat) (cap : Option (List Char))
    (hh : ∀ c, x.head? = some c → isSpace c = false) :
    (Re.star isSpace).run ic some ⟨pos, ' ' :: x, cap⟩ = some ⟨pos + 1, x, cap⟩ := by
  rw [run_star]
  exact starLoop_greedy isSpace some x hh [' '] pos cap _ (by decide) rfl

/-- The bullet expression removes `- ` from an item line. -/
theorem removeFirst_bullet (x : List Char)
    (hh : ∀ c, x.head? = some c → isSpace c = false) :
    bulletRe.removeFirst false ("- ".toList ++ x) = x := by
  have hrun : bulletRe.run false some ⟨0, '-' :: ' ' :: x, none⟩ = some ⟨2, x, none⟩ := by
    unfold bulletRe
    rw [run_seq, run_bos, if_pos rfl, run_seq, run_plus_cons, if_pos (by decide),
      starLoop_stop _ _ _ _ _ _ (by decide), run_seq, run_opt_cons, if_neg (by decide)]
    exact starSpace_blank false x 1 none hh
  show (match bulletRe.searchFrom false 0 ('-' :: ' ' :: x) with
    | some (start, st) => ('-' :: ' ' :: x).take start ++ st.rest
    | none => '-' :: ' ' :: x) = x
  rw [Re.searchFrom, hrun]
  rfl

/-- The number expression removes `k. ` from a step line. -/
theorem removeFirst_number (n : Nat) (x : List Char)
    (hh : ∀ c, x.head? = some c → isSpace c = false) :
    numberRe.removeFirst false (Nat.toDigits 10 n ++ ". ".toList ++ x) = x := by
  cases hd : Nat.toDigits 10 n with
  | nil => exact absurd hd (toDigits_ne_nil n)
  | cons d ds =>
    have hall : ∀ c ∈ d :: ds, isDigit c = true := hd ▸ toDigits_isDigit n
    have hrun : ∃ m, numberRe.run false some ⟨0, d :: (ds ++ '.' :: ' ' :: x), none⟩ =
        some ⟨m, x, none⟩ := by
      refine ⟨0 + 1 + ds.length + 1 + 1, ?_⟩
      unfold numberRe
      rw [run_seq, run_bos, if_pos rfl, run_seq, run_plus_cons,
        if_pos (hall d (List.mem_cons_self _ _))]
      apply starLoop_greedy isDigit _ ('.' :: ' ' :: x) (by intro c hc; cases hc; decide) ds
        (0 + 1) none _ (fun c hc => hall c (List.mem_cons_of_mem _ hc))
      rw [run_seq, run_opt_cons, if_pos (by decide), starSpace_blank false x _ none hh]
      rfl
    obtain ⟨m, hm⟩ := hrun
    show (match numberRe.searchFrom false 0 ((d :: ds) ++ ". ".toList ++ x) with
      | some (start, st) => ((d :: ds) ++ ". ".toList ++ x).take start ++ st.rest
      | none => (d :: ds) ++ ". ".toList ++ x) = x
    have e : (d :: ds) ++ ". ".toList ++ x = d :: (ds ++ '.' :: ' ' :: x) := by
      simp
    rw [e, Re.searchFrom, hm]
    rfl

/-! ## One sentence per line -/

/-- The sentence expression matches a whole line made of a run of other
characters followed by a run of sentence-terminal characters. -/
theorem sentenceRe_whole (a p : List Char) (pos : Nat) (ha : a ≠ [])
    (hna : ∀ c ∈ a, isTerminal c = false) (hp : ∀ c ∈ p, isTerminal c = true) :
    ∃ n, sentenceRe.run false some ⟨pos, a ++ p, none⟩ = some ⟨n, [], none⟩ := by
  cases a with
  | nil => exact absurd rfl ha
  | cons a₀ a' =>
    have hn0 : isNonTerminal a₀ = true := by
      simp [isNonTerminal, hna a₀ (List.mem_cons_self _ _)]
    have hn' : ∀ c ∈ a', isNonTerminal c = true := by
      intro c hc
      simp [isNonTerminal, hna c (List.mem_cons_of_mem _ hc)]
    cases p with
    | nil =>
      refine ⟨pos + 1 + a'.length, ?_⟩
      unfold sentenceRe
      rw [run_alt, List.append_nil, run_seq, run_plus_cons, if_pos hn0]
      have hA : starLoop isNonTerminal
          ((Re.seq (.plus isTerminal) (.alt (.cls isSpace) .eos)).run false some) a'
          (pos + 1) none = none := by
        cases hx : starLoop isNonTerminal
          ((Re.seq (.plus isTerminal) (.alt (.cls isSpace) .eos)).run false some) a'
          (pos + 1) none with
        | none => rfl
        | some res =>
          obtain ⟨st, hk, hs, _⟩ := starLoop_result _ _ _ _ _ _ hx
          obtain ⟨q, rest, cap⟩ := st
          rw [run_seq] at hk
          cases rest with
          | nil => rw [run_plus_nil] at hk; cases hk
          | cons d t =>
            have hd : d ∈ a' := hs.subset (List.mem_cons_self _ _)
            have : isTerminal d = false := hna d (List.mem_cons_of_mem _ hd)
            rw [run_plus_cons, this] at hk
            cases hk
      rw [hA, first_none, run_seq, run_plus_cons, if_pos hn0]
      have := starLoop_greedy isNonTerminal (Re.eos.run false some) [] (by simp) a' (pos + 1) none
        ⟨pos + 1 + a'.length, [], none⟩ hn' rfl
      simpa using this
    | cons p₀ p' =>
      refine ⟨pos + 1 + a'.length + 1 + p'.length, ?_⟩
      unfold sentenceRe
      rw [run_alt, List.cons_append, run_seq, run_plus_cons, if_pos hn0]
      have hp0 : isTerminal p₀ = true := hp p₀ (List.mem_cons_self _ _)
      have hA : starLoop isNonTerminal
          ((Re.seq (.plus isTerminal) (.alt (.cls isSpace) .eos)).run false some)
          (a' ++ p₀ :: p') (pos + 1) none =
          some ⟨pos + 1 + a'.length + 1 + p'.length, [], none⟩ := by
        apply starLoop_greedy isNonTerminal _ (p₀ :: p')
          (by intro c hc; cases hc; simp [isNonTerminal, hp0]) a' (pos + 1) none _ hn'
        rw [run_seq, run_plus_cons, if_pos hp0]
        have := starLoop_greedy isTerminal ((Re.alt (.cls isSpace) .eos).run false some) []
          (by simp) p' (pos + 1 + a'.length + 1) none
          ⟨pos + 1 + a'.length + 1 + p'.length, [], none⟩
          (fun c hc => hp c (List.mem_cons_of_mem _ hc)) rfl
        simpa using this
      rw [hA, first_some]

theorem matchAllFrom_skip_cons (ic : Bool) (r : Re) (pos skip : Nat) (c : Char)
    (t : List Char) :
    r.matchAllFrom ic pos (skip + 1) (c :: t) = r.matchAllFrom ic (pos + 1) skip t := rfl

theorem matchAllFrom_skip (ic : Bool) (r : Re) : ∀ (t : List Char) (pos : Nat),
    r.matchAllFrom ic pos t.length t = r.matchAllFrom ic (pos + t.length) 0 [] := by
  intro t
  induction t with
  | nil => intro pos; rfl
  | cons c t ih =>
    intro pos
    rw [List.length_cons, matchAllFrom_skip_cons, ih]
    have e : pos + 1 + t.length = pos + (t.length + 1) := by omega
    rw [e]

theorem matchAllFrom_whole (ic : Bool) (r : Re) (pos n : Nat) (c : Char) (t : List Char)
    (h : r.run ic some ⟨pos, c :: t, none⟩ = some ⟨n, [], none⟩) :
    r.matchAllFrom ic pos 0 (c :: t) =
      (c :: t) :: r.matchAllFrom ic (pos + 1 + t.length) 0 [] := by
  have e : r.matchAllFrom ic pos 0 (c :: t) =
      (c :: t).take ((c :: t).length - ([] : List Char).length) ::
        r.matchAllFrom ic (pos + 1)
          (((c :: t).take ((c :: t).length - ([] : List Char).length)).length - 1) t := by
    rw [Re.matchAllFrom, h]
  rw [e]
  have e2 : (c :: t).take ((c :: t).length - ([] : List Char).length) = c :: t := by simp
  rw [e2]
  have e3 : (c :: t).length - 1 = t.length := by simp
  rw [e3, matchAllFrom_skip]

theorem sentenceRe_empty (pos : Nat) : sentenceRe.run false some ⟨pos, [], none⟩ = none := rfl

/-- A line of one sentence is its only sentence. -/
theorem sentencesOf_single (a p : List Char) (ha : a ≠ [])
    (hna : ∀ c ∈ a, isTerminal c = false) (hp : ∀ c ∈ p, isTerminal c = true)
    (ht : trim (a ++ p) = a ++ p) : sentencesOf (a ++ p) = [a ++ p] := by
  obtain ⟨n, hn⟩ := sentenceRe_whole a p 0 ha hna hp
  have hne : a ++ p ≠ [] := by simp [ha]
  cases hs : a ++ p with
  | nil => exact absurd hs hne
  | cons c t =>
    rw [hs] at hn ht
    have hall : sentenceRe.matchAllFrom false 0 0 (c :: t) = [c :: t] := by
      rw [matchAllFrom_whole false sentenceRe 0 n c t hn, Re.matchAllFrom, sentenceRe_empty]
    unfold sentencesOf Re.matchAll
    rw [hall]
    simp [ht]

/-! ## The three section expressions on a well-formed text -/

theorem take_append_sub (w v : List Char) : (w ++ v).take ((w ++ v).length - v.length) = w := by
  simp

theorem isDot_of_not_lineTerminator (c : Char) (h : isLineTerminator c = false) :
    isDot c = true := by
  simp [isDot, h]

theorem ne_lf_of_not_lineTerminator (c : Char) (h : isLineTerminator c = false) : c ≠ '\n' := by
  intro e
  rw [e] at h
  exact absurd h (by decide)

/-- The title expression at `Title: t` followed by a line feed captures `t`. -/
theorem titleRe_run (t rest : List Char) (hne : t ≠ [])
    (hh : ∀ c, t.head? = some c → isSpace c = false)
    (hlt : ∀ c ∈ t, isLineTerminator c = false) :
    ∃ n, titleRe.run true some ⟨0, "Title:".toList ++ ' ' :: (t ++ '\n' :: rest), none⟩ =
      some ⟨n, '\n' :: rest, some t⟩ := by
  refine ⟨0 + "Title:".toList.length + 1 + t.length, ?_⟩
  unfold titleRe
  rw [run_str_self, run_seq, run_star]
  have hhead : ∀ c, (t ++ '\n' :: rest).head? = some c → isSpace c = false := by
    intro c hc
    cases t with
    | nil => exact absurd rfl hne
    | cons a b => exact hh c hc
  apply starLoop_greedy isSpace _ (t ++ '\n' :: rest) hhead [' '] _ none _ (by decide)
  rw [run_seq, run_group, run_plusLazy]
  apply lazyLoop_first isDot _ ('\n' :: rest) t _ none _ hne
    (fun c hc => isDot_of_not_lineTerminator c (hlt c hc))
  · intro w₁ w₂ hsplit _ hw₂
    cases w₂ with
    | nil => exact absurd rfl hw₂
    | cons d w₂' =>
      have hd : d ≠ '\n' :=
        ne_lf_of_not_lineTerminator d (hlt d (by rw [hsplit]; simp))
      simp only [List.cons_append]
      rw [run_look, run_alt, run_chr_cons, chrEq_lf d hd, run_eos_cons]
      rfl
  · simp only
    rw [run_look, run_alt, run_chr_cons, chrEq_self]
    simp only [if_true, first_some, take_append_sub]
    rfl

/-- The ingredients expression at `Ingredients:`, a line feed, a stretch `w`
in which `Instructions:` does not start, and then `Instructions:`, captures
`w`. -/
theorem ingredientsRe_run (w srest : List Char) (pos : Nat) (hne : w ≠ [])
    (hh : ∀ c, w.head? = some c → isSpace c = false)
    (hns : NoStart "Instructions:".toList w ("Instructions:".toList ++ srest)) :
    ∃ n, ingredientsRe.run true some
        ⟨pos, "Ingredients:".toList ++ '\n' :: (w ++ ("Instructions:".toList ++ srest)), none⟩ =
      some ⟨n, "Instructions:".toList ++ srest, some w⟩ := by
  refine ⟨pos + "Ingredients:".toList.length + 1 + w.length, ?_⟩
  unfold ingredientsRe
  rw [run_str_self, run_seq, run_star]
  have hhead : ∀ c, (w ++ ("Instructions:".toList ++ srest)).head? = some c →
      isSpace c = false := by
    intro c hc
    cases w with
    | nil => exact absurd rfl hne
    | cons a b => exact hh c hc
  apply starLoop_greedy isSpace _ (w ++ ("Instructions:".toList ++ srest)) hhead ['\n'] _ none _
    (by decide)
  rw [run_seq, run_group, run_plusLazy]
  apply lazyLoop_first isAny _ ("Instructions:".toList ++ srest) w _ none _ hne (fun _ _ => rfl)
  · intro w₁ w₂ hsplit _ hw₂
    have hno : ¬ StartsWithCI ("Instructions".toList ++ [':'])
        (w₂ ++ ("Instructions:".toList ++ srest)) := hns w₁ w₂ hsplit hw₂
    cases w₂ with
    | nil => exact absurd rfl hw₂
    | cons d w₂' =>
      simp only
      rw [run_look, run_alt, run_str_chr_none _ _ _ _ _ _ hno]
      simp only [List.cons_append]
      rw [run_eos_cons]
      rfl
  · simp only
    have e : "Instructions:".toList ++ srest = "Instructions".toList ++ ':' :: srest := rfl
    have hlit : ∀ (p : Nat) (cap : Option (List Char)),
        (Re.str "Instructions".toList (.chr ':')).run true some
          ⟨p, "Instructions:".toList ++ srest, cap⟩ =
        some ⟨p + "Instructions".toList.length + 1, srest, cap⟩ := by
      intro p cap
      rw [e, run_str_self, run_chr_cons, chrEq_self]
      rfl
    rw [run_look, run_alt, hlit, first_some]
    simp only [take_append_sub]
    rfl

/-- The instructions expression at `Instructions:`, a line feed, and a text
that does not start with white space, captures the text. -/
theorem instructionsRe_run (s : List Char) (pos : Nat) (hne : s ≠ [])
    (hh : ∀ c, s.head? = some c → isSpace c = false) :
    ∃ n, instructionsRe.run true some ⟨pos, "Instructions:".toList ++ '\n' :: s, none⟩ =
      some ⟨n, [], some s⟩ := by
  cases s with
  | nil => exact absurd rfl hne
  | cons c s' =>
    refine ⟨pos + "Instructions:".toList.length + 1 + 1 + s'.length, ?_⟩
    unfold instructionsRe
    rw [run_str_self, run_seq, run_star]
    apply starLoop_greedy isSpace _ (c :: s') hh ['\n'] _ none _ (by decide)
    rw [run_group, run_plus_cons]
    simp only [isAny, if_true]
    have := starLoop_greedy isAny
      (fun st' => some (⟨st'.pos, st'.rest,
        some ((c :: s').take ((c :: s').length - st'.rest.length))⟩ : MState)) []
      (by simp) s' (pos + "Instructions:".toList.length + ['\n'].length + 1) none
      ⟨pos + "Instructions:".toList.length + 1 + 1 + s'.length, [], some (c :: s')⟩
      (fun _ _ => rfl) (by simp)
    simpa using this

/-! ## Sections of a well-formed text -/

/-- Joined lines followed by a line feed, as a fold. -/
theorem intercalate_append_lf : ∀ (ls : List (List Char)) (l rest : List Char),
    "\n".toList.intercalate (l :: ls) ++ '\n' :: rest =
      (l :: ls).foldr (fun x acc => x ++ '\n' :: acc) rest := by
  intro ls
  induction ls with
  | nil =>
    intro l rest
    rw [intercalate_one]
    rfl
  | cons l' ls ih =>
    intro l rest
    rw [intercalate_cons, List.foldr_cons, ← ih l' rest]
    simp

/-- The item lines contain no start of a literal that has no `-`, blank or line
feed and does not occur in the items. -/
theorem noStart_items (cs v : List Char) (hcs : cs ≠ [])
    (h1 : ('-' : Char).toUpper ∉ cs.map Char.toUpper)
    (h2 : (' ' : Char).toUpper ∉ cs.map Char.toUpper)
    (h3 : ('\n' : Char).toUpper ∉ cs.map Char.toUpper) :
    ∀ (items : List (List Char)),
      (∀ i ∈ items, ∀ m, m <:+: i → m.map Char.toUpper ≠ cs.map Char.toUpper) →
      NoStart cs ((items.map (fun i => "- ".toList ++ i)).foldr
        (fun x acc => x ++ '\n' :: acc) []) v := by
  intro items
  induction items with
  | nil =>
    intro _
    exact noStart_nil cs v
  | cons i items ih =>
    intro h
    rw [List.map_cons, List.foldr_cons]
    have e : ("- ".toList ++ i) ++ '\n' ::
        (items.map (fun i => "- ".toList ++ i)).foldr (fun x acc => x ++ '\n' :: acc) [] =
        ['-'] ++ ' ' :: (i ++ '\n' ::
          (items.map (fun i => "- ".toList ++ i)).foldr (fun x acc => x ++ '\n' :: acc) []) := by
      simp
    rw [e]
    apply noStart_chunk cs ['-'] ' ' _ v _ h2 hcs
    · exact noStart_chunk cs i '\n' _ v (h i (List.mem_cons_self _ _)) h3 hcs
        (ih (fun j hj => h j (List.mem_cons_of_mem _ hj)))
    · intro m hm hmap
      have hlen : m.length ≤ 1 := by simpa using hm.length_le
      cases m with
      | nil =>
        cases cs with
        | nil => exact hcs rfl
        | cons a b => simp at hmap
      | cons x m' =>
        have hx : x = '-' := by
          have := hm.subset (List.mem_cons_self x m')
          simpa using this
        apply h1
        rw [← hmap, hx]
        simp

/-- The lines of a section whose text is a list of lines joined by line feeds,
each line made of a marker and a content the marker expression gives back. -/
theorem sectionLines_joined (marker : Re) (ws : List Char) (hws : ∀ c ∈ ws, isSpace c = true) :
    ∀ (p : List Char × List Char) (ps : List (List Char × List Char)),
      (∀ q ∈ p :: ps, q.1 ≠ [] ∧ trim q.1 = q.1 ∧ '\n' ∉ q.1 ∧
        trim (marker.removeFirst false q.1) = q.2 ∧ q.2 ≠ []) →
      sectionLines marker ("\n".toList.intercalate ((p :: ps).map Prod.fst) ++ ws) =
        (p :: ps).map Prod.snd := by
  intro p ps h
  have hne : ∀ x ∈ p.1 :: ps.map Prod.fst, x ≠ [] := by
    intro x hx
    rw [← List.map_cons] at hx
    obtain ⟨q, hq, rfl⟩ := List.mem_map.1 hx
    exact (h q hq).1
  have hjoin : "\n".toList.intercalate ((p :: ps).map Prod.fst) ≠ [] :=
    intercalate_ne_nil _ _ _ (h p (List.mem_cons_self _ _)).1
  have hhead : ∀ c, ("\n".toList.intercalate ((p :: ps).map Prod.fst)).head? = some c →
      isSpace c = false := by
    intro c hc
    rw [List.map_cons, head?_intercalate _ _ _ (h p (List.mem_cons_self _ _)).1] at hc
    exact (ends_of_trim_eq _ (h p (List.mem_cons_self _ _)).2.1).1 c hc
  have hlast : ∀ c, ("\n".toList.intercalate ((p :: ps).map Prod.fst)).getLast? = some c →
      isSpace c = false := by
    intro c hc
    rw [List.map_cons, getLast?_intercalate _ _ _ hne] at hc
    have hmem : (p.1 :: ps.map Prod.fst).getLast (by simp) ∈ (p :: ps).map Prod.fst :=
      List.getLast_mem _
    obtain ⟨q, hq, hq'⟩ := List.mem_map.1 hmem
    rw [← hq'] at hc
    exact (ends_of_trim_eq _ (h q hq).2.1).2 c hc
  unfold sectionLines
  rw [trim_append_space _ ws hjoin hhead hlast hws, List.map_cons, splitLines_intercalate,
    ← List.map_cons, List.map_map]
  · have hmap : ∀ q ∈ p :: ps,
        ((fun line => trim (marker.removeFirst false line)) ∘ Prod.fst) q = Prod.snd q :=
      fun q hq => (h q hq).2.2.2.1
    rw [List.map_congr_left hmap]
    apply List.filter_eq_self.2
    intro x hx
    obtain ⟨q, hq, rfl⟩ := List.mem_map.1 hx
    have := (h q hq).2.2.2.2
    simpa [List.length_pos] using this
  · intro x hx
    rw [← List.map_cons] at hx
    obtain ⟨q, hq, rfl⟩ := List.mem_map.1 hx
    exact (h q hq).2.2.1

theorem flatMap_single {f : List Char → List (List Char)} :
    ∀ (xs : List (List Char)), (∀ x ∈ xs, f x = [x]) → xs.flatMap f = xs := by
  intro xs
  induction xs with
  | nil => intro _; rfl
  | cons x xs ih =>
    intro h
    rw [List.flatMap_cons, h x (List.mem_cons_self _ _),
      ih (fun y hy => h y (List.mem_cons_of_mem _ hy))]
    rfl

theorem sectionLines_pairs (marker : Re) (ws : List Char) (hws : ∀ c ∈ ws, isSpace c = true)
    (ps : List (List Char × List Char)) (hps : ps ≠ [])
    (h : ∀ q ∈ ps, q.1 ≠ [] ∧ trim q.1 = q.1 ∧ '\n' ∉ q.1 ∧
      trim (marker.removeFirst false q.1) = q.2 ∧ q.2 ≠ []) :
    sectionLines marker ("\n".toList.intercalate (ps.map Prod.fst) ++ ws) = ps.map Prod.snd := by
  cases ps with
  | nil => exact absurd rfl hps
  | cons p ps => exact sectionLines_joined marker ws hws p ps h

theorem searchFrom_hit (ic : Bool) (r : Re) (pos : Nat) (s : List Char) (st : MState)
    (h : r.run ic some ⟨pos, s, none⟩ = some st) : r.searchFrom ic pos s = some (pos, st) := by
  cases s with
  | nil => rw [Re.searchFrom, h]
  | cons c t => rw [Re.searchFrom, h]

theorem wellFormedText_eq (t : List Char) (items steps : List (List Char)) :
    wellFormedText t items steps =
      "Title:".toList ++ ' ' :: (t ++ '\n' :: ("Ingredients:".toList ++ '\n' ::
        (("\n".toList.intercalate (items.map (fun i => "- ".toList ++ i)) ++ ['\n']) ++
          ("Instructions:".toList ++ '\n' :: "\n".toList.intercalate
            ((steps.enumFrom 1).map
              (fun ks => Nat.toDigits 10 ks.1 ++ ". ".toList ++ ks.2)))))) := by
  have e1 : "Title: ".toList = "Title:".toList ++ [' '] := rfl
  have e2 : "\nIngredients:\n".toList = '\n' :: ("Ingredients:".toList ++ ['\n']) := rfl
  have e3 : "\nInstructions:\n".toList = '\n' :: ("Instructions:".toList ++ ['\n']) := rfl
  unfold wellFormedText
  rw [e1, e2, e3]
  simp only [List.append_assoc, List.cons_append, List.nil_append, List.singleton_append]

/-- A title, item or step of a well-formed text, as a line: with a marker in
front that is not white space it is still trimmed and free of line feeds. -/
theorem marked_line (mk x : List Char) (hmk : mk ≠ [])
    (hh : ∀ c, mk.head? = some c → isSpace c = false) (hlf : '\n' ∉ mk)
    (hx : x ≠ [] ∧ trim x = x ∧ ∀ c ∈ x, isLineTerminator c = false) :
    mk ++ x ≠ [] ∧ trim (mk ++ x) = mk ++ x ∧ '\n' ∉ mk ++ x := by
  refine ⟨by simp [hmk], ?_, ?_⟩
  · apply trim_self
    · intro c hc
      cases mk with
      | nil => exact absurd rfl hmk
      | cons a b => exact hh c hc
    · intro c hc
      rw [List.getLast?_append_of_ne_nil _ hx.1] at hc
      exact (ends_of_trim_eq x hx.2.1).2 c hc
  · intro h
    rcases List.mem_append.1 h with h | h
    · exact hlf h
    · exact ne_lf_of_not_lineTerminator _ (hx.2.2 _ h) rfl

theorem head?_joined (l rest : List Char) (ls : List (List Char)) (hl : l ≠ []) :
    ("\n".toList.intercalate (l :: ls) ++ rest).head? = l.head? := by
  have hne := intercalate_ne_nil "\n".toList l ls hl
  cases hj : "\n".toList.intercalate (l :: ls) with
  | nil => exact absurd hj hne
  | cons a b =>
    rw [← head?_intercalate "\n".toList l ls hl, hj]
    rfl

theorem ingredientsList_of_section (text w rest : List Char) (k n : Nat) (hw : w ≠ [])
    (h : ingredientsSection text = some (k, ⟨n, rest, some w⟩)) :
    ingredientsList text = sectionLines bulletRe w := by
  unfold ingredientsList
  rw [h]
  cases w with
  | nil => exact absurd rfl hw
  | cons c s => rfl

theorem instructionsList_of_section (text w rest : List Char) (k n : Nat) (hw : w ≠ [])
    (h : instructionsSection text = some (k, ⟨n, rest, some w⟩)) :
    instructionsList text = (sectionLines numberRe w).flatMap sentencesOf := by
  unfold instructionsList
  rw [h]
  cases w with
  | nil => exact absurd rfl hw
  | cons c s => rfl

/-- The round trip on every well-formed text. -/
theorem round_trip_general (t : List Char) (items steps : List (List Char))
    (hi : items ≠ []) (hs : steps ≠ [])
    (hall : ∀ x ∈ t :: (items ++ steps),
      x ≠ [] ∧ trim x = x ∧ ∀ c ∈ x, isLineTerminator c = false)
    (hmark : ∀ x ∈ t :: items, ∀ m, m <:+: x →
      m.map Char.toUpper ≠ "INGREDIENTS:".toList ∧ m.map Char.toUpper ≠ "INSTRUCTIONS:".toList)
    (hsteps : ∀ s ∈ steps, ∃ a p, s = a ++ p ∧ a ≠ [] ∧ (∀ c ∈ a, isTerminal c = false) ∧
      (∀ c ∈ p, isTerminal c = true)) :
    parseResponse (wellFormedText t items steps) =
      .ok ⟨t, items, steps, wellFormedText t items steps⟩ := by
  have ht := hall t (List.mem_cons_self _ _)
  have hitem : ∀ i ∈ items, i ≠ [] ∧ trim i = i ∧ ∀ c ∈ i, isLineTerminator c = false :=
    fun i h => hall i (List.mem_cons_of_mem _ (List.mem_append_left _ h))
  have hstep : ∀ s ∈ steps, s ≠ [] ∧ trim s = s ∧ ∀ c ∈ s, isLineTerminator c = false :=
    fun s h => hall s (List.mem_cons_of_mem _ (List.mem_append_right _ h))
  -- the two sections as lists of (line, content)
  have hsecI : sectionLines bulletRe
      ("\n".toList.intercalate (items.map (fun i => "- ".toList ++ i)) ++ ['\n']) = items := by
    have h := sectionLines_pairs bulletRe ['\n'] (by decide)
      (items.map (fun i => ("- ".toList ++ i, i))) (by simpa using hi) (by
        intro q hq
        obtain ⟨i, hi', rfl⟩ := List.mem_map.1 hq
        have hm := marked_line "- ".toList i (by decide) (by decide) (by decide) (hitem i hi')
        refine ⟨hm.1, hm.2.1, hm.2.2, ?_, (hitem i hi').1⟩
        show trim (bulletRe.removeFirst false ("- ".toList ++ i)) = i
        rw [removeFirst_bullet i (ends_of_trim_eq i (hitem i hi').2.1).1]
        exact (hitem i hi').2.1)
    have e1 : (items.map (fun i => ("- ".toList ++ i, i))).map Prod.fst =
        items.map (fun i => "- ".toList ++ i) := by
      rw [List.map_map]
      rfl
    have e2 : (items.map (fun i => ("- ".toList ++ i, i))).map Prod.snd = items := by
      rw [List.map_map]
      exact List.map_id items
    rw [e1, e2] at h
    exact h
  have hsecS : sectionLines numberRe ("\n".toList.intercalate
      ((steps.enumFrom 1).map (fun ks => Nat.toDigits 10 ks.1 ++ ". ".toList ++ ks.2))) =
      steps := by
    have h := sectionLines_pairs numberRe [] (by simp)
      ((steps.enumFrom 1).map (fun ks => (Nat.toDigits 10 ks.1 ++ ". ".toList ++ ks.2, ks.2)))
      (by simpa using hs) (by
        intro q hq
        obtain ⟨ks, hks, rfl⟩ := List.mem_map.1 hq
        have hmem : ks.2 ∈ steps := by
          have := List.mem_map_of_mem Prod.snd hks
          rwa [List.enumFrom_map_snd] at this
        have hd := toDigits_isDigit ks.1
        have hm := marked_line (Nat.toDigits 10 ks.1 ++ ". ".toList) ks.2
          (by simp [toDigits_ne_nil])
          (by
            intro c hc
            cases hn : Nat.toDigits 10 ks.1 with
            | nil => exact absurd hn (toDigits_ne_nil _)
            | cons a b =>
              rw [hn] at hc hd
              cases hc
              exact isDigit_not_space _ (hd _ (List.mem_cons_self _ _)))
          (by
            intro h
            rcases List.mem_append.1 h with h | h
            · exact isDigit_ne_lf _ (hd _ h) rfl
            · exact absurd h (by decide))
          (hstep ks.2 hmem)
        simp only [List.append_assoc] at hm ⊢
        refine ⟨hm.1, hm.2.1, hm.2.2, ?_, (hstep ks.2 hmem).1⟩
        have := removeFirst_number ks.1 ks.2 (ends_of_trim_eq _ (hstep ks.2 hmem).2.1).1
        simp only [List.append_assoc] at this
        rw [this]
        exact (hstep ks.2 hmem).2.1)
    have e1 : ((steps.enumFrom 1).map
        (fun ks => (Nat.toDigits 10 ks.1 ++ ". ".toList ++ ks.2, ks.2))).map Prod.fst =
        (steps.enumFrom 1).map (fun ks => Nat.toDigits 10 ks.1 ++ ". ".toList ++ ks.2) := by
      rw [List.map_map]
      rfl
    have e2 : ((steps.enumFrom 1).map
        (fun ks => (Nat.toDigits 10 ks.1 ++ ". ".toList ++ ks.2, ks.2))).map Prod.snd =
        steps := by
      rw [List.map_map]
      exact List.enumFrom_map_snd 1 steps
    rw [e1, e2, List.append_nil] at h
    exact h
  -- the joined items, with their line feed, and the joined steps
  have hWne : "\n".toList.intercalate (items.map (fun i => "- ".toList ++ i)) ++ ['\n'] ≠ [] := by
    simp
  have hWhead : ∀ c, ("\n".toList.intercalate (items.map (fun i => "- ".toList ++ i)) ++
      ['\n']).head? = some c → isSpace c = false := by
    obtain ⟨i₀, items', rfl⟩ := List.exists_cons_of_ne_nil hi
    intro c hc
    rw [List.map_cons, head?_joined _ _ _ (by simp)] at hc
    cases hc
    decide
  have hSne : "\n".toList.intercalate ((steps.enumFrom 1).map
      (fun ks => Nat.toDigits 10 ks.1 ++ ". ".toList ++ ks.2)) ≠ [] := by
    obtain ⟨s₀, steps', rfl⟩ := List.exists_cons_of_ne_nil hs
    rw [List.enumFrom_cons, List.map_cons]
    exact intercalate_ne_nil _ _ _ (by simp [toDigits_ne_nil])
  have hShead : ∀ c, ("\n".toList.intercalate ((steps.enumFrom 1).map
      (fun ks => Nat.toDigits 10 ks.1 ++ ". ".toList ++ ks.2))).head? = some c →
      isSpace c = false := by
    obtain ⟨s₀, steps', rfl⟩ := List.exists_cons_of_ne_nil hs
    intro c hc
    rw [List.enumFrom_cons, List.map_cons, head?_intercalate _ _ _ (by simp [toDigits_ne_nil])]
      at hc
    have e : Nat.toDigits 10 1 = ['1'] := by decide
    simp only [e, List.cons_append, List.head?_cons, Option.some.injEq] at hc
    rw [← hc]
    decide
  have hNSW : ∀ v, NoStart "Instructions:".toList
      ("\n".toList.intercalate (items.map (fun i => "- ".toList ++ i)) ++ ['\n']) v := by
    intro v
    have hfold : "\n".toList.intercalate (items.map (fun i => "- ".toList ++ i)) ++ ['\n'] =
        (items.map (fun i => "- ".toList ++ i)).foldr (fun x acc => x ++ '\n' :: acc) [] := by
      obtain ⟨i₀, items', rfl⟩ := List.exists_cons_of_ne_nil hi
      rw [List.map_cons]
      exact intercalate_append_lf _ _ []
    rw [hfold]
    exact noStart_items _ v (by decide) (by decide) (by decide) (by decide) items
      (fun i hi' m hm h =>
        (hmark i (List.mem_cons_of_mem _ hi') m hm).2 (h.trans (by decide)))
  have hNS1 : ∀ v, NoStart "Ingredients:".toList ("Title:".toList ++ ' ' :: (t ++ '\n' :: [])) v :=
    fun v => noStart_chunk _ _ _ _ v (no_infix_of_tails _ _ (by decide)) (by decide) (by decide)
      (noStart_chunk _ _ _ _ v
        (fun m hm h => (hmark t (List.mem_cons_self _ _) m hm).1 (h.trans (by decide)))
        (by decide) (by decide) (noStart_nil _ v))
  have hNS2 : ∀ v, NoStart "Instructions:".toList ("Title:".toList ++ ' ' :: (t ++ '\n' ::
      ("Ingredients:".toList ++ '\n' ::
        ("\n".toList.intercalate (items.map (fun i => "- ".toList ++ i)) ++ ['\n'])))) v :=
    fun v => noStart_chunk _ _ _ _ v (no_infix_of_tails _ _ (by decide)) (by decide) (by decide)
      (noStart_chunk _ _ _ _ v
        (fun m hm h => (hmark t (List.mem_cons_self _ _) m hm).2 (h.trans (by decide)))
        (by decide) (by decide)
        (noStart_chunk _ _ _ _ v (no_infix_of_tails _ _ (by decide)) (by decide) (by decide)
          (hNSW v)))
  -- the title
  have hT : titleOf (wellFormedText t items steps) = .ok t := by
    obtain ⟨n, hn⟩ := titleRe_run t ("Ingredients:".toList ++ '\n' ::
      (("\n".toList.intercalate (items.map (fun i => "- ".toList ++ i)) ++ ['\n']) ++
        ("Instructions:".toList ++ '\n' :: "\n".toList.intercalate
          ((steps.enumFrom 1).map (fun ks => Nat.toDigits 10 ks.1 ++ ". ".toList ++ ks.2)))))
      ht.1 (ends_of_trim_eq t ht.2.1).1 ht.2.2
    have hm := searchFrom_hit true titleRe 0 _ _ hn
    rw [← wellFormedText_eq t items steps] at hm
    have hm' : titleMatch (wellFormedText t items steps) = some (0, _) := hm
    unfold titleOf
    rw [hm']
    simp only
    rw [ht.2.1]
  -- the ingredients
  have hI : ingredientsList (wellFormedText t items steps) = items := by
    obtain ⟨n, hn⟩ := ingredientsRe_run _ ('\n' :: "\n".toList.intercalate
      ((steps.enumFrom 1).map (fun ks => Nat.toDigits 10 ks.1 ++ ". ".toList ++ ks.2)))
      (0 + ("Title:".toList ++ ' ' :: (t ++ '\n' :: [])).length) hWne hWhead (hNSW _)
    unfold ingredientsRe at hn
    have h1 := (searchFrom_skip _ _ _ _ 0 (hNS1 _)).trans (searchFrom_hit true _ _ _ _ hn)
    have split : wellFormedText t items steps =
        ("Title:".toList ++ ' ' :: (t ++ '\n' :: [])) ++ ("Ingredients:".toList ++ '\n' ::
        (("\n".toList.intercalate (items.map (fun i => "- ".toList ++ i)) ++ ['\n']) ++
          ("Instructions:".toList ++ '\n' :: "\n".toList.intercalate
            ((steps.enumFrom 1).map
              (fun ks => Nat.toDigits 10 ks.1 ++ ". ".toList ++ ks.2))))) := by
      rw [wellFormedText_eq]
      simp
    rw [← split] at h1
    have hm : ingredientsSection (wellFormedText t items steps) = some (_, _) := h1
    rw [ingredientsList_of_section _ _ _ _ _ hWne hm, hsecI]
  -- the instructions
  have hS : instructionsList (wellFormedText t items steps) = steps := by
    obtain ⟨n, hn⟩ := instructionsRe_run _
      (0 + ("Title:".toList ++ ' ' :: (t ++ '\n' :: ("Ingredients:".toList ++ '\n' ::
        ("\n".toList.intercalate (items.map (fun i => "- ".toList ++ i)) ++ ['\n'])))).length)
      hSne hShead
    unfold instructionsRe at hn
    have h1 := (searchFrom_skip _ _ _ _ 0 (hNS2 _)).trans (searchFrom_hit true _ _ _ _ hn)
    have split : wellFormedText t items steps =
        ("Title:".toList ++ ' ' :: (t ++ '\n' :: ("Ingredients:".toList ++ '\n' ::
          ("\n".toList.intercalate (items.map (fun i => "- ".toList ++ i)) ++ ['\n'])))) ++
          ("Instructions:".toList ++ '\n' :: "\n".toList.intercalate
            ((steps.enumFrom 1).map
              (fun ks => Nat.toDigits 10 ks.1 ++ ". ".toList ++ ks.2))) := by
      rw [wellFormedText_eq]
      simp
    rw [← split] at h1
    have hm : instructionsSection (wellFormedText t items steps) = some (_, _) := h1
    rw [instructionsList_of_section _ _ _ _ _ hSne hm, hsecS]
    apply flatMap_single
    intro s hs'
    obtain ⟨a, p, rfl, ha, hna, hp⟩ := hsteps s hs'
    exact sentencesOf_single a p ha hna hp (hstep _ hs').2.1
  unfold parseResponse
  rw [hT, hI, hS]

/-- C1: the round trip of the response parser.  For every title `t`, every
non-empty list of items and every non-empty list of steps such that each of
them is non-empty, has no white space at its ends and contains no line break
(line terminator: LF, CR, U+2028, U+2029), no title or item contains
`ingredients:` or `instructions:` in any letter case, and every step is a
non-empty run of characters other than `.`, `!`, `?` followed by a run of `.`,
`!`, `?`, parsing the well-formed text returns the title, the items and the
steps, in order.  And the text named by the specification is parsed to the
title `Pasta`, the ingredients `tomato`, `basil` and the instructions
`Boil water.`, `Add pasta.`, `Serve hot.`. -/
theorem parseResponse_round_trip :
    (∀ (t : List Char) (items steps : List (List Char)),
      items ≠ [] → steps ≠ [] →
      (∀ x ∈ t :: (items ++ steps),
        x ≠ [] ∧ trim x = x ∧ ∀ c ∈ x, isLineTerminator c = false) →
      (∀ x ∈ t :: items, ∀ m, m <:+: x →
        m.map Char.toUpper ≠ "INGREDIENTS:".toList ∧
          m.map Char.toUpper ≠ "INSTRUCTIONS:".toList) →
      (∀ s ∈ steps, ∃ a p, s = a ++ p ∧ a ≠ [] ∧ (∀ c ∈ a, isTerminal c = false) ∧
        (∀ c ∈ p, isTerminal c = true)) →
      parseResponse (wellFormedText t items steps) =
        .ok ⟨t, items, steps, wellFormedText t items steps⟩) ∧
    parseResponse
      "Title: Pasta\nIngredients:\n- tomato\n- basil\nInstructions:\n1. Boil water. Add pasta.\n2. Serve hot.".toList =
      .ok ⟨"Pasta".toList, ["tomato".toList, "basil".toList],
        ["Boil water.".toList, "Add pasta.".toList, "Serve hot.".toList],
        "Title: Pasta\nIngredients:\n- tomato\n- basil\nInstructions:\n1. Boil water. Add pasta.\n2. Serve hot.".toList⟩ :=
  ⟨round_trip_general, rfl⟩

/-- The round trip at the title `Pasta`, the items `tomato`, `basil` and the
steps `Boil water.`, `Serve hot!`. -/
theorem parseResponse_round_trip_witness :
    wellFormedText "Pasta".toList ["tomato".toList, "basil".toList]
        ["Boil water.".toList, "Serve hot!".toList] =
      "Title: Pasta\nIngredients:\n- tomato\n- basil\nInstructions:\n1. Boil water.\n2. Serve hot!".toList ∧
    parseResponse (wellFormedText "Pasta".toList ["tomato".toList, "basil".toList]
        ["Boil water.".toList, "Serve hot!".toList]) =
      .ok ⟨"Pasta".toList, ["tomato".toList, "basil".toList],
        ["Boil water.".toList, "Serve hot!".toList],
        wellFormedText "Pasta".toList ["tomato".toList, "basil".toList]
          ["Boil water.".toList, "Serve hot!".toList]⟩ :=
  ⟨by decide,
    parseResponse_round_trip.1 "Pasta".toList ["tomato".toList, "basil".toList]
      ["Boil water.".toList, "Serve hot!".toList] (by decide) (by decide) (by decide)
      (by
        intro x hx m hm
        simp only [List.mem_cons, List.mem_singleton, List.not_mem_nil, or_false] at hx
        rcases hx with rfl | rfl | rfl <;>
          exact ⟨no_infix_of_tails _ _ (by decide) m hm, no_infix_of_tails _ _ (by decide) m hm⟩)
      (by
        intro s hs
        simp only [List.mem_cons, List.mem_singleton, List.not_mem_nil, or_false] at hs
        rcases hs with rfl | rfl
        · exact ⟨"Boil water".toList, ".".toList, by decide, by decide, by decide, by decide⟩
        · exact ⟨"Serve hot".toList, "!".toList, by decide, by decide, by decide, by decide⟩)⟩
/-! ## The parser at the inputs the specification names -/

/-- C3 at the failing input: for `"Ingredients:\nInstructions:\n1. Mix."` the
span between the two markers is empty, yet the ingredients are the
`Instructions:` marker itself and the step after it. -/
theorem ingredientsList_takes_instructions :
    ingredientsList "Ingredients:\nInstructions:\n1. Mix.".toList =
      ["Instructions:".toList, "Mix.".toList] := by
  decide

/-- C4 at the failing inputs: for `"Title:   "` the title is the empty string,
and for `"Title:\nIngredients:\n- x"` the title is `"Ingredients:"`, text of
the next line. -/
theorem title_empty_or_from_next_line :
    parseResponse "Title:   ".toList = .ok ⟨[], [], [], "Title:   ".toList⟩ ∧
    parseResponse "Title:\nIngredients:\n- x".toList =
      .ok ⟨"Ingredients:".toList, ["x".toList], [], "Title:\nIngredients:\n- x".toList⟩ := by
  exact ⟨rfl, rfl⟩

/-- C5 at the failing input: the line `"Bake at 3.5 degrees."` yields the single
unit `"5 degrees."`; the text `"Bake at 3."` is dropped. -/
theorem sentencesOf_drops_text :
    sentencesOf "Bake at 3.5 degrees.".toList = ["5 degrees.".toList] := by
  decide

/-! ## Handlers: validation and error responses -/

/-- The create handler answers 400 without a store call to every payload whose
`ingredients` is not a sequence, whatever the other fields. -/
theorem createRecipe_rejects_non_array (nodeEnv : Option String) (body : RecipeBody)
    (h : body.ingredients.isArray = false) :
    ∃ res, createRecipe nodeEnv body = .respond res ∧ res.status = 400 := by
  unfold createRecipe
  split
  · exact ⟨_, rfl, rfl⟩
  · rw [h]
    exact ⟨_, rfl, rfl⟩

/-- The update handler answers 400 without a store call when the id is valid
and `ingredients` is truthy and not a sequence. -/
theorem updateRecipe_rejects_truthy_non_array (isValid : String → Bool)
    (nodeEnv : Option String) (id : String) (body : RecipeBody) (hid : isValid id = true)
    (ht : body.ingredients.toBoolean = true) (h : body.ingredients.isArray = false) :
    updateRecipe isValid nodeEnv id body =
      .respond (badRequest "Ingredients must be an array") := by
  simp [updateRecipe, hid, ht, h]

/-- With a valid id, the update handler passes every payload whose `ingredients`
is falsy (absent, null, false, 0, the empty string) on to the store. -/
theorem updateRecipe_falsy_reaches_store (isValid : String → Bool) (nodeEnv : Option String)
    (id : String) (body : RecipeBody) (hid : isValid id = true)
    (hf : body.ingredients.toBoolean = false) :
    (updateRecipe isValid nodeEnv id body).calls = [.findByIdAndUpdate id body.toJson] := by
  simp [updateRecipe, hid, hf, Handling.calls]

/-- C6 at the failing input: with a valid id and the payload
`{ ingredients: "" }` (present, not a sequence) the update handler does not
answer by itself: it calls `Recipe.findByIdAndUpdate` with the payload, and
answers 200 when the store returns a document. -/
theorem updateRecipe_empty_string_reaches_store :
    (updateRecipe (fun _ => true) none "65f0c0ffee0123456789abcd"
      ⟨.undefined, .str "", .undefined, .undefined, .undefined⟩).calls =
      [.findByIdAndUpdate "65f0c0ffee0123456789abcd"
        (.obj [("title", .undefined), ("ingredients", .str ""), ("instructions", .undefined),
          ("image", .undefined), ("nutrition", .undefined)])] ∧
    ((updateRecipe (fun _ => true) none "65f0c0ffee0123456789abcd"
      ⟨.undefined, .str "", .undefined, .undefined, .undefined⟩).response
        (fun _ => .resolved (.obj [("title", .str "Soup")]))).status = 200 := by
  exact ⟨rfl, rfl⟩

/-- C7 as stated fails: for the creation payload
`{ ingredients: "", instructions: "Mix." }` only `title` is missing, yet
`details` carries a message for `ingredients`, which is present, and an entry
(null) for `instructions`, which is present. -/
theorem createRecipe_details_not_exactly_missing :
    createRecipe none ⟨.undefined, .str "", .str "Mix.", .undefined, .undefined⟩ =
      .respond ⟨400, .obj [("message", .str "Missing required fields"),
        ("details", missingDetails ⟨.undefined, .str "", .str "Mix.", .undefined, .undefined⟩)]⟩ ∧
    (missingDetails ⟨.undefined, .str "", .str "Mix.", .undefined, .undefined⟩).get? "ingredients" =
      some (.str "Ingredients are required") ∧
    (missingDetails ⟨.undefined, .str "", .str "Mix.", .undefined, .undefined⟩).get? "instructions" =
      some .null := by
  exact ⟨rfl, rfl, rfl⟩

/-- C7 amended: when at least one of title, ingredients, instructions is
missing from a creation payload, the handler answers 400 "Missing required
fields" without a store call, and `details` has an entry for each of the three
fields: a message when the field is missing or falsy, null when it is truthy. -/
theorem createRecipe_missing_details (nodeEnv : Option String) (body : RecipeBody)
    (h : body.title = .undefined ∨ body.ingredients = .undefined ∨
      body.instructions = .undefined) :
    ∃ details,
      createRecipe nodeEnv body =
        .respond ⟨400, .obj [("message", .str "Missing required fields"),
          ("details", details)]⟩ ∧
      (createRecipe nodeEnv body).calls = [] ∧
      ∀ field value, (field, value) ∈ [("title", body.title),
          ("ingredients", body.ingredients), ("instructions", body.instructions)] →
        ∃ entry, details.get? field = some entry ∧
          (value.toBoolean = true → entry = .null) ∧
          (value.toBoolean = false → ∃ msg, entry = .str msg) := by
  have hf : (!body.title.toBoolean || !body.ingredients.toBoolean ||
      !body.instructions.toBoolean) = true := by
    rcases h with h | h | h <;> simp [h, JsValue.toBoolean]
  refine ⟨missingDetails body, ?_, ?_, ?_⟩
  · unfold createRecipe
    rw [if_pos hf]
  · unfold createRecipe
    rw [if_pos hf]
    rfl
  · intro field value hmem
    simp only [List.mem_cons, Prod.mk.injEq, List.mem_singleton, List.not_mem_nil,
      or_false] at hmem
    rcases hmem with ⟨rfl, rfl⟩ | ⟨rfl, rfl⟩ | ⟨rfl, rfl⟩
    · refine ⟨_, rfl, ?_, ?_⟩
      · intro hv
        simp [hv]
      · intro hv
        simp [hv]
    · refine ⟨_, rfl, ?_, ?_⟩
      · intro hv
        simp [hv]
      · intro hv
        simp [hv]
    · refine ⟨_, rfl, ?_, ?_⟩
      · intro hv
        simp [hv]
      · intro hv
        simp [hv]

/-- The required-field check at the payload
`{ ingredients: ["egg"], instructions: "Mix." }`, where the title is missing. -/
theorem createRecipe_missing_details_witness :
    ∃ details,
      createRecipe none ⟨.undefined, .arr [.str "egg"], .str "Mix.", .undefined, .undefined⟩ =
        .respond ⟨400, .obj [("message", .str "Missing required fields"),
          ("details", details)]⟩ ∧
      (createRecipe none
        ⟨.undefined, .arr [.str "egg"], .str "Mix.", .undefined, .undefined⟩).calls = [] ∧
      ∀ field value, (field, value) ∈ [("title", JsValue.undefined),
          ("ingredients", JsValue.arr [.str "egg"]), ("instructions", JsValue.str "Mix.")] →
        ∃ entry, details.get? field = some entry ∧
          (value.toBoolean = true → entry = .null) ∧
          (value.toBoolean = false → ∃ msg, entry = .str msg) :=
  createRecipe_missing_details none
    ⟨.undefined, .arr [.str "egg"], .str "Mix.", .undefined, .undefined⟩ (Or.inl rfl)

/-- In production mode the guarded 500 response is the same for every error. -/
theorem serverError_production (message : String) (e₁ e₂ : JsError) :
    serverError (some "production") message e₁ = serverError (some "production") message e₂ := by
  simp [serverError, errorText]

/-- In production mode the 500 responses of the handlers other than
`GET /api/recipes` do not depend on the error: two failures that are both
answered 500 get the same response. -/
theorem guarded_handlers_production (isValid : String → Bool) (id : String)
    (body : RecipeBody) (ingredients : JsValue) (e₁ e₂ : JsError)
    (h₁ : e₁.name ≠ "ValidationError") (h₂ : e₂.name ≠ "ValidationError") :
    (getRecipeById isValid (some "production") id).response (fun _ => .rejected e₁) =
      (getRecipeById isValid (some "production") id).response (fun _ => .rejected e₂) ∧
    (updateRecipe isValid (some "production") id body).response (fun _ => .rejected e₁) =
      (updateRecipe isValid (some "production") id body).response (fun _ => .rejected e₂) ∧
    (deleteRecipe isValid (some "production") id).response (fun _ => .rejected e₁) =
      (deleteRecipe isValid (some "production") id).response (fun _ => .rejected e₂) ∧
    (createRecipe (some "production") body).response (fun _ => .rejected e₁) =
      (createRecipe (some "production") body).response (fun _ => .rejected e₂) ∧
    (generateRecipe (some "production") ingredients).response (.failed e₁) =
      (generateRecipe (some "production") ingredients).response (.failed e₂) := by
  refine ⟨?_, ?_, ?_, ?_, ?_⟩
  · unfold getRecipeById
    split <;> simp [Handling.response, serverError_production _ e₁ e₂]
  · unfold updateRecipe
    split
    · rfl
    · split
      · rfl
      · simp [Handling.response, h₁, h₂, serverError_production _ e₁ e₂]
  · unfold deleteRecipe
    split <;> simp [Handling.response, serverError_production _ e₁ e₂]
  · unfold createRecipe
    split
    · rfl
    · split
      · rfl
      · simp [Handling.response, h₁, h₂, serverError_production _ e₁ e₂]
  · unfold generateRecipe
    split <;> simp [Generation.response, serverError_production _ e₁ e₂]

/-- C8 at the failing input: `GET /api/recipes` puts the error object itself
into its 500 response, whatever NODE_ENV is (the handler does not read it), so
two store failures with different enumerable properties are both answered 500
and with different bodies. -/
theorem getRecipes_body_depends_on_error :
    (getRecipes.response
      (fun _ => .rejected ⟨"MongoServerError", "not authorized", [],
        [("code", .num 13)]⟩)).status = 500 ∧
    (getRecipes.response
      (fun _ => .rejected ⟨"MongoServerError", "operation exceeded time limit", [],
        [("code", .num 50)]⟩)).status = 500 ∧
    (getRecipes.response
      (fun _ => .rejected ⟨"MongoServerError", "not authorized", [],
        [("code", .num 13)]⟩)).body ≠
    (getRecipes.response
      (fun _ => .rejected ⟨"MongoServerError", "operation exceeded time limit", [],
        [("code", .num 50)]⟩)).body := by
  refine ⟨rfl, rfl, ?_⟩
  simp [getRecipes, Handling.response, JsError.toJson]

/-- C9 as stated fails: the 200 response of the generate handler has no field
named `originalResponse`. -/
theorem generateRecipe_no_originalResponse_field :
    ((generateRecipe none (.arr [.str "egg"])).response (.text "Title: Omelette")).status = 200 ∧
    ((generateRecipe none (.arr [.str "egg"])).response (.text "Title: Omelette")).body.get?
      "originalResponse" = none := by
  exact ⟨rfl, rfl⟩

/-- C9 amended: for every request with a non-empty ingredients sequence and
every text the upstream service returns, the handler answers 200 with an object
of exactly the fields title, ingredients, instructions and originalAIResponse,
the last one being the upstream text unchanged. -/
theorem generateRecipe_keeps_original (nodeEnv : Option String) (x : JsValue)
    (xs : List JsValue) (text : String) :
    ∃ title ingredients instructions,
      (generateRecipe nodeEnv (.arr (x :: xs))).response (.text text) =
        ⟨200, .obj [("title", .str title), ("ingredients", .arr ingredients),
          ("instructions", .arr instructions), ("originalAIResponse", .str text)]⟩ := by
  obtain ⟨t, _, hp⟩ := parseResponse_ok text.toList
  refine ⟨String.mk t, (ingredientsList text.toList).map (fun s => JsValue.str (String.mk s)),
    (instructionsList text.toList).map (fun s => JsValue.str (String.mk s)), ?_⟩
  have hg : generateRecipe nodeEnv (.arr (x :: xs)) = .ask (fun up =>
      match up with
      | .text t =>
        match parseResponse t.toList with
        | .ok generatedRecipe => ⟨200, generatedRecipe.toJson⟩
        | .error error => serverError nodeEnv "Failed to generate recipe" error
      | .failed error => serverError nodeEnv "Failed to generate recipe" error) := rfl
  rw [hg]
  show (match parseResponse text.toList with
      | .ok generatedRecipe => (⟨200, generatedRecipe.toJson⟩ : Response)
      | .error error => serverError nodeEnv "Failed to generate recipe" error) = _
  rw [hp]
  rfl

end RecipeServer
